import Mathlib

/-!
Verification development for the LTIWrapper repository (tool_consumer.py /
tool_provider.py).

Strings are modelled as lists of byte values (`List Nat`, each `< 256`),
matching Python's str/bytes at the UTF-8 byte level; all inputs used in the
claims are ASCII, where the two views coincide.  Pure functions of the
source (and of the library calls the source delegates to, as documented per
definition) are translated into executable Lean functions; the Tornado
`post` handler becomes a function from the request body to a structured
outcome.
-/

namespace LTI

/-- Byte strings: each element is a byte value. -/
abbrev Bytes := List Nat

/-- All elements of the list are genuine byte values. -/
def ValidB (l : Bytes) : Prop := ∀ b ∈ l, b < 256

/-- Convert an ASCII string literal to its byte list (UTF-8 code units for
ASCII coincide with code points). -/
def str2bytes (s : String) : Bytes := s.toList.map Char.toNat

/-- Hex digit encoder used by Python `urllib.parse.quote` (uppercase). -/
def hexDigit (d : Nat) : Nat := if d < 10 then 48 + d else 55 + d

/-- Recognizer for ASCII hex digits (0-9, A-F, a-f), as accepted by Python
`urllib.parse.unquote`. -/
def isHexB (b : Nat) : Bool :=
  decide ((48 ≤ b ∧ b ≤ 57) ∨ (65 ≤ b ∧ b ≤ 70) ∨ (97 ≤ b ∧ b ≤ 102))

/-- Numeric value of an ASCII hex digit. -/
def hexVal (b : Nat) : Nat :=
  if b ≤ 57 then b - 48 else if b ≤ 70 then b - 55 else b - 87

/-- Python `urllib`'s always-safe set: ASCII letters, digits and `_.-~`
(the RFC 3986 unreserved characters). -/
def isSafeByte (b : Nat) : Bool :=
  decide ((48 ≤ b ∧ b ≤ 57) ∨ (65 ≤ b ∧ b ≤ 90) ∨ (97 ≤ b ∧ b ≤ 122) ∨
    b = 45 ∨ b = 46 ∨ b = 95 ∨ b = 126)

/-- Modelled from the spec (§4.1, Parameter Codec): Python
`urllib.parse.quote_plus` with empty `safe`, the percent-encoder used by
`urllib.parse.urlencode` when the source's `PreparedRequest` bodies are
built.  Space becomes `+`; unreserved bytes pass through; everything else
becomes `%HH` with uppercase hex. -/
def quotePlus : Bytes → Bytes
  | [] => []
  | b :: rest =>
    (if b = 32 then [43]
     else if isSafeByte b then [b]
     else [37, hexDigit (b / 16), hexDigit (b % 16)]) ++ quotePlus rest

/-- Modelled from the spec (§4.2 step 2): oauthlib's `utils.escape`,
percent-encoding with the RFC 3986 unreserved set (letters, digits,
`-_.~`); unlike `quotePlus`, space becomes `%20`. -/
def escapeO : Bytes → Bytes
  | [] => []
  | b :: rest =>
    (if isSafeByte b then [b]
     else [37, hexDigit (b / 16), hexDigit (b % 16)]) ++ escapeO rest

/-- Modelled from the spec (§4.1): Python `urllib.parse.unquote_plus` at the
byte level: `+` becomes space, `%HH` with hex digits decodes to a byte, and
malformed escapes are kept literally. -/
def unquotePlus : Bytes → Bytes
  | [] => []
  | 43 :: rest => 32 :: unquotePlus rest
  | 37 :: h :: l :: rest =>
    if isHexB h && isHexB l then (hexVal h * 16 + hexVal l) :: unquotePlus rest
    else 37 :: unquotePlus (h :: l :: rest)
  | b :: rest => b :: unquotePlus rest

/-- Split a byte string on a separator byte, like Python `str.split`:
the empty string yields one empty field. -/
def splitOn (c : Nat) : Bytes → List Bytes
  | [] => [[]]
  | b :: rest =>
    if b = c then [] :: splitOn c rest
    else
      match splitOn c rest with
      | s :: ss => (b :: s) :: ss
      | [] => [[b]]

/-- Split at the first occurrence of a byte, like Python `str.split(c, 1)`
when the separator occurs. -/
def splitFirst (c : Nat) : Bytes → Option (Bytes × Bytes)
  | [] => none
  | b :: rest =>
    if b = c then some ([], rest)
    else (splitFirst c rest).map (fun p => (b :: p.1, p.2))

/-- Lists of decoded (name, value) pairs. -/
abbrev Pairs := List (Bytes × Bytes)

/-- Decode one `&`-separated field of a query string, per Python
`urllib.parse.parse_qsl`: empty fields are skipped; a field without `=` is
kept (with empty value) only when blank values are kept; a field with `=`
is kept when the value is nonempty or blank values are kept. -/
def parseSeg (keepBlank : Bool) (seg : Bytes) : Option (Bytes × Bytes) :=
  if seg = [] then none
  else
    match splitFirst 61 seg with
    | some (n, v) =>
      if v ≠ [] ∨ keepBlank = true then some (unquotePlus n, unquotePlus v) else none
    | none => if keepBlank then some (unquotePlus seg, []) else none

/-- Modelled from the spec (§4.1): Python `urllib.parse.parse_qsl`
restricted to the `&` separator, producing decoded (name, value) pairs in
occurrence order. -/
def parseQsl (qs : Bytes) (keepBlank : Bool) : Pairs :=
  (splitOn 38 qs).filterMap (parseSeg keepBlank)

/-- Value of a decoded parameter as the source's `parse_qs` wrapper
represents it: a single string for singly-occurring keys, a list for
multiply-occurring keys. -/
inductive Value where
  | one (s : Bytes)
  | many (l : List Bytes)
deriving DecidableEq, Repr

/-- Grouped query parameters: key paired with all its values in order. -/
abbrev Groups := List (Bytes × List Bytes)

/-- Python `k in dict` on an insertion-ordered association list. -/
def containsKeyB {β : Type} (d : List (Bytes × β)) (k : Bytes) : Bool :=
  d.any (fun g => decide (g.1 = k))

/-- One step of Python dict grouping as done by `urllib.parse.parse_qs`:
append the value to the key's list, or add a new key at the end. -/
def addPair (acc : Groups) (p : Bytes × Bytes) : Groups :=
  if containsKeyB acc p.1 then
    acc.map (fun g => if g.1 = p.1 then (g.1, g.2 ++ [p.2]) else g)
  else acc ++ [(p.1, [p.2])]

/-- Group decoded pairs by key in first-occurrence order with values in
occurrence order, as `urllib.parse.parse_qs` builds its dict. -/
def groupPairs (l : Pairs) : Groups := l.foldl addPair []

/-- Collapse a value list to the source's scalar-or-list representation
(`v if len(v) > 1 else v[0]`). -/
def collapseVal : List Bytes → Value
  | [v] => .one v
  | l => .many l

/-- Decoded parameter dictionaries (insertion-ordered, unique keys). -/
abbrev ParamDict := List (Bytes × Value)

/-- The `parse_qs` method shared verbatim by `LTIToolConsumer` and
`ToolProviderHandler`: decode a percent-encoded query string into a
dictionary of query parameters, collapsing single-valued keys to scalars. -/
def parse_qs (qs : Bytes) (keepBlank : Bool) : ParamDict :=
  (groupPairs (parseQsl qs keepBlank)).map (fun g => (g.1, collapseVal g.2))

/-- First-occurrence association-list lookup (Python dict access). -/
def lookupFirst {β : Type} : List (Bytes × β) → Bytes → Option β
  | [], _ => none
  | (k, v) :: rest, key => if k = key then some v else lookupFirst rest key

/-- Remove a key from a decoded dictionary (Python `del data[k]`). -/
def eraseKey (d : ParamDict) (k : Bytes) : ParamDict :=
  d.filter (fun p => decide (¬ p.1 = k))

/-- Expand a scalar-or-list value back to its individual values. -/
def expandVal (k : Bytes) : Value → Pairs
  | .one s => [(k, s)]
  | .many l => l.map (fun v => (k, v))

/-- Expand a decoded dictionary back to individual (name, value) pairs, as
requests' `urlencode(..., doseq=True)` iterates it. -/
def expandDict (d : ParamDict) : Pairs := d.flatMap (fun p => expandVal p.1 p.2)

/-- One encoded `k=v` field. -/
def pairSeg (p : Bytes × Bytes) : Bytes := quotePlus p.1 ++ 61 :: quotePlus p.2

/-- Join fields with `&` (Python `'&'.join`). -/
def joinAmp : List Bytes → Bytes
  | [] => []
  | [s] => s
  | s :: rest => s ++ 38 :: joinAmp rest

/-- Modelled from the spec (§4.1, encode): `urllib.parse.urlencode` over a
pair list: each pair yields `quote_plus(k)=quote_plus(v)`, joined by `&`.
Blank values are emitted as `k=`. -/
def urlencodePairs (ps : Pairs) : Bytes := joinAmp (ps.map pairSeg)

/-- Encoding of a decoded dictionary, as requests encodes a dict with
scalar-or-list values (`urlencode` with `doseq=True`). -/
def urlencodeDoseq (d : ParamDict) : Bytes := urlencodePairs (expandDict d)

/-- Python dict merge `d |= e` on insertion-ordered association lists:
existing keys keep their position and take `e`'s value, new keys of `e`
are appended in order. -/
def mergeDict (d e : Pairs) : Pairs :=
  d.map (fun p => (p.1, ((lookupFirst e p.1).getD p.2))) ++
    e.filter (fun q => decide (lookupFirst d q.1 = none))

/-! ### OAuth1 HMAC-SHA1 signing (the library layer the source delegates to) -/

/-- Lexicographic byte-wise comparison, Python string `<=`. -/
def bytesLeB : Bytes → Bytes → Bool
  | [], _ => true
  | _ :: _, [] => false
  | a :: as, b :: bs => if a < b then true else if a = b then bytesLeB as bs else false

/-- Python tuple comparison on (key, value) pairs: by key, then by value. -/
def pairLeB (p q : Bytes × Bytes) : Bool :=
  if p.1 = q.1 then bytesLeB p.2 q.2 else bytesLeB p.1 q.1

/-- Ordering relation used to sort encoded parameter pairs. -/
def pairLe (p q : Bytes × Bytes) : Prop := pairLeB p q = true

instance : DecidableRel pairLe := fun p q => inferInstanceAs (Decidable (pairLeB p q = true))

/-- Key of the OAuth signature parameter. -/
def oauthSigKey : Bytes := str2bytes "oauth_signature"

/-- Modelled from the spec (§4.2 step 1-4): oauthlib's
`normalize_parameters`: percent-encode each key and value with the
unreserved set, sort the pairs byte-wise (key, then value), and join as
`k=v` with `&`. -/
def normalizeParams (ps : Pairs) : Bytes :=
  joinAmp ((List.insertionSort pairLe (ps.map (fun p => (escapeO p.1, escapeO p.2)))).map
    (fun p => p.1 ++ 61 :: p.2))

/-- Modelled from the spec (§4.2, input description): oauthlib's
`collect_parameters` on a form-encoded body with no URL query and no
`Authorization` header: the body's pairs with `oauth_signature` excluded. -/
def collectParams (ps : Pairs) : Pairs :=
  ps.filter (fun p => decide (¬ p.1 = oauthSigKey))

/-- Uppercase ASCII letters (Python `str.upper` for ASCII). -/
def upperB (s : Bytes) : Bytes :=
  s.map (fun b => if 97 ≤ b ∧ b ≤ 122 then b - 32 else b)

/-- Modelled from the spec (§4.2 step 5): the base string URI.  oauthlib
normalizes scheme/host case, strips default ports and drops query and
fragment; the model takes the URL as a given, already-normalized base URL
with no query component, which is how both sides of this code base use it
(both sign the very same URL string). -/
def baseStringUri (u : Bytes) : Bytes := u

/-- Modelled from the spec (§4.2 step 5): oauthlib's
`signature_base_string`: `escape(UPPER(method)) & escape(uri) &
escape(normalized-params)`. -/
def sigBaseString (method uri : Bytes) (ps : Pairs) : Bytes :=
  escapeO (upperB method) ++ 38 ::
    (escapeO (baseStringUri uri) ++ 38 :: escapeO (normalizeParams (collectParams ps)))

/-- Rotate a 32-bit word left by `k` bits. -/
def rotl32 (x k : Nat) : Nat :=
  ((x <<< k) % 4294967296) ||| ((x % 4294967296) >>> (32 - k))

/-- Big-endian 8-byte encoding of a length in bits (SHA-1 padding tail). -/
def be8 (n : Nat) : Bytes :=
  [(n >>> 56) % 256, (n >>> 48) % 256, (n >>> 40) % 256, (n >>> 32) % 256,
   (n >>> 24) % 256, (n >>> 16) % 256, (n >>> 8) % 256, n % 256]

/-- SHA-1 message padding: a `0x80` byte, zeros to 56 mod 64, then the
bit length, big endian. -/
def sha1Pad (msg : Bytes) : Bytes :=
  msg ++ 128 :: (List.replicate ((119 - msg.length % 64) % 64) 0 ++ be8 (msg.length * 8))

/-- Chunking helper with explicit fuel so that all recursion is structural
and kernel-evaluable. -/
def chunksGo (n : Nat) : Nat → Bytes → List Bytes
  | 0, _ => []
  | _, [] => []
  | fuel + 1, l => l.take n :: chunksGo n fuel (l.drop n)

/-- Split a byte string into 64-byte blocks. -/
def chunks64 (l : Bytes) : List Bytes := chunksGo 64 l.length l

/-- Split a block into 4-byte groups. -/
def chunks4 (l : Bytes) : List Bytes := chunksGo 4 l.length l

/-- Big-endian 32-bit words of a 64-byte block. -/
def wordsBE (block : Bytes) : List Nat :=
  (chunks4 block).map (fun c =>
    c.getD 0 0 * 16777216 + c.getD 1 0 * 65536 + c.getD 2 0 * 256 + c.getD 3 0)

/-- Extend 16 message words to 80 (SHA-1 schedule); the accumulator is kept
reversed so the most recent word is at the head. -/
def sha1ExtendGo : Nat → List Nat → List Nat
  | 0, acc => acc
  | fuel + 1, acc =>
    sha1ExtendGo fuel
      (rotl32 (acc.getD 2 0 ^^^ acc.getD 7 0 ^^^ acc.getD 13 0 ^^^ acc.getD 15 0) 1 :: acc)

/-- The 80 scheduled words of a block, in order. -/
def sha1Schedule (w16 : List Nat) : List Nat :=
  (sha1ExtendGo 64 w16.reverse).reverse

/-- SHA-1 round function: state (a,b,c,d,e), round index and word. -/
def sha1Round (st : Nat × Nat × Nat × Nat × Nat) (iw : Nat × Nat) :
    Nat × Nat × Nat × Nat × Nat :=
  match st, iw with
  | (a, b, c, d, e), (i, w) =>
    let f := if i < 20 then (b &&& c) ||| ((4294967295 - b) &&& d)
      else if i < 40 then b ^^^ c ^^^ d
      else if i < 60 then (b &&& c) ||| (b &&& d) ||| (c &&& d)
      else b ^^^ c ^^^ d
    let k := if i < 20 then 1518500249
      else if i < 40 then 1859775393
      else if i < 60 then 2400959708
      else 3395469782
    let temp := (rotl32 a 5 + f + e + k + w) % 4294967296
    (temp, a, rotl32 b 30, c, d)

/-- SHA-1 compression of one block into the running hash state. -/
def sha1Compress (h : Nat × Nat × Nat × Nat × Nat) (block : Bytes) :
    Nat × Nat × Nat × Nat × Nat :=
  match h, (sha1Schedule (wordsBE block)).enum.foldl sha1Round h with
  | (h0, h1, h2, h3, h4), (a, b, c, d, e) =>
    ((h0 + a) % 4294967296, (h1 + b) % 4294967296, (h2 + c) % 4294967296,
     (h3 + d) % 4294967296, (h4 + e) % 4294967296)

/-- Big-endian bytes of a 32-bit word. -/
def be4 (n : Nat) : Bytes := [(n >>> 24) % 256, (n >>> 16) % 256, (n >>> 8) % 256, n % 256]

/-- The SHA-1 hash of a byte string (20-byte digest). -/
def sha1 (msg : Bytes) : Bytes :=
  match (chunks64 (sha1Pad msg)).foldl sha1Compress
      (1732584193, 4023233417, 2562383102, 271733878, 3285377520) with
  | (h0, h1, h2, h3, h4) => be4 h0 ++ be4 h1 ++ be4 h2 ++ be4 h3 ++ be4 h4

/-- HMAC-SHA1 (RFC 2104) with a 64-byte block size. -/
def hmacSha1 (key msg : Bytes) : Bytes :=
  let k0 := if 64 < key.length then sha1 key else key
  let kp := k0 ++ List.replicate (64 - k0.length) 0
  sha1 (kp.map (fun b => b ^^^ 92) ++ sha1 (kp.map (fun b => b ^^^ 54) ++ msg))

/-- Standard base64 alphabet. -/
def base64Alphabet : Bytes :=
  str2bytes "ABCDEFGHIJKLMNOPQRSTUVWXYZabcdefghijklmnopqrstuvwxyz0123456789+/"

/-- Character of a 6-bit group. -/
def b64char (i : Nat) : Nat := base64Alphabet.getD i 65

/-- Standard base64 encoding with `=` padding (as `binascii.b2a_base64`). -/
def base64 : Bytes → Bytes
  | [] => []
  | [a] => [b64char (a >>> 2), b64char ((a % 4) <<< 4), 61, 61]
  | [a, b] => [b64char (a >>> 2), b64char (((a % 4) <<< 4) ||| (b >>> 4)),
      b64char ((b % 16) <<< 2), 61]
  | a :: b :: c :: rest =>
    b64char (a >>> 2) :: b64char (((a % 4) <<< 4) ||| (b >>> 4)) ::
      b64char (((b % 16) <<< 2) ||| (c >>> 6)) :: b64char (c % 64) :: base64 rest

/-- Modelled from the spec (§4.3, HMAC-SHA1 Signer): signing key
`escape(consumer_secret) & escape(token_secret)` with an empty token
secret, signature `base64(HMAC_SHA1(key, base_string))`, where the base
string is built from the method, URL and collected parameters. -/
def oauthSignature (method uri : Bytes) (ps : Pairs) (secret : Bytes) : Bytes :=
  base64 (hmacSha1 (escapeO secret ++ [38]) (sigBaseString method uri ps))

/-! ### The consumer (tool_consumer.py) -/

/-- Test whether a pair's key starts with the given byte string. -/
def startsWithB : Bytes → Bytes → Bool
  | [], _ => true
  | _ :: _, [] => false
  | a :: as, b :: bs => a == b && startsWithB as bs

/-- Whether a parameter is an `oauth_`-prefixed protocol parameter. -/
def isOauthKeyed (p : Bytes × Bytes) : Bool := startsWithB (str2bytes "oauth_") p.1

/-- Modelled from the spec (§4.4): oauthlib's `_append_params`, which
appends the generated OAuth parameters to the request's parameters and
stably moves entries whose names start with `oauth_` after the request-specific ones. -/
def appendParams (oauthPs body : Pairs) : Pairs :=
  body.filter (fun p => ! isOauthKeyed p) ++ body.filter isOauthKeyed ++ oauthPs

/-- Modelled from the spec (§4.4): the `oauth_*` parameters that oauthlib's
client adds before signing.  Nonce and timestamp are inputs of the model
(in the source they come from the RNG and the clock); the remaining three
are fixed by the HMAC-SHA1 client configuration. -/
def getOauthParams (nonce ts key : Bytes) : Pairs :=
  [(str2bytes "oauth_nonce", nonce), (str2bytes "oauth_timestamp", ts),
   (str2bytes "oauth_version", str2bytes "1.0"),
   (str2bytes "oauth_signature_method", str2bytes "HMAC-SHA1"),
   (str2bytes "oauth_consumer_key", key)]

/-- The fixed default launch parameters of
`LTIToolConsumer.generate_launch_request_payload` (the Python int `1` is
form-encoded as the string `1`). -/
def payloadDefaults : Pairs :=
  [(str2bytes "lti_message_type", str2bytes "basic-lti-launch-request"),
   (str2bytes "lti_version", str2bytes "LTI-1p0"),
   (str2bytes "resource_link_id", str2bytes "1")]

/-- The merged launch payload: defaults updated with the caller's extra
parameters (`payload |= extra_params`). -/
def launchPayload (overrides : Pairs) : Pairs := mergeDict payloadDefaults overrides

/-- The prepared launch request of
`LTIToolConsumer.generate_launch_request_payload`: method `POST`, the
configured launch URL, and the form-encoded merged payload as body. -/
def generateLaunchRequestPayload (launchUrl : Bytes) (overrides : Pairs) :
    Bytes × Bytes × Bytes :=
  (str2bytes "POST", launchUrl, urlencodePairs (launchPayload overrides))

/-- The signed request of `LTIToolConsumer.sign_request` (OAuth1 with
`SIGNATURE_TYPE_BODY`): decode the prepared body, add the `oauth_*`
parameters, compute the HMAC-SHA1 signature over the combined parameters
(the library excludes `oauth_signature` itself), append the signature, and
re-encode the body. -/
def signRequest (key secret method url body0 nonce ts : Bytes) :
    Bytes × Bytes × Bytes :=
  let decoded := parseQsl body0 true
  let oauthPs := getOauthParams nonce ts key
  let sig := oauthSignature method url (appendParams oauthPs decoded) secret
  (method, url, urlencodePairs (appendParams (oauthPs ++ [(oauthSigKey, sig)]) decoded))

/-- The body of a freshly signed launch request, as the consumer sends it. -/
def consumerSignedBody (key secret url : Bytes) (overrides : Pairs) (nonce ts : Bytes) :
    Bytes :=
  (signRequest key secret (str2bytes "POST") url
    (generateLaunchRequestPayload url overrides).2.2 nonce ts).2.2

/-! ### The provider (tool_provider.py) -/

/-- Outcome of `ToolProviderHandler.post` as seen by the transport layer:
the tool HTML written with the default HTTP 200 status, a rejection with an
explicit status and reason payload, or an uncaught `KeyError` (which
Tornado surfaces as an unhandled-error HTTP 500 response). -/
inductive ProviderOutcome where
  | accepted (html : Bytes)
  | rejected (status : Nat) (reason : Bytes)
  | keyError (key : Bytes)
deriving DecidableEq, Repr

/-- The tool sent on success. -/
def toolHtml : Bytes := str2bytes "<div><h1>take this awesome tool</h1></div>"

/-- Reason string of the machine-readable 401 response payload
(reason: invalid_signature). -/
def invalidSignatureReason : Bytes := str2bytes "invalid_signature"

/-- The provider's recomputed signature over a stripped parameter
dictionary: rebuild a form-encoded request from it (requests' `urlencode`
with `doseq`), let oauthlib re-decode that body and sign it with the
configured secret. -/
def providerRecomputedSig (secret url : Bytes) (d : ParamDict) : Bytes :=
  oauthSignature (str2bytes "POST") url (parseQsl (urlencodeDoseq d) true) secret

/-- The `ToolProviderHandler.post` handler: decode the body keeping blanks,
read `oauth_signature` (a missing key raises `KeyError`), delete it,
rebuild and re-sign the request with the provider's credentials, and accept
exactly when the supplied signature equals the recomputed one.  The
configured consumer key `pkey` is passed to the library but does not enter
the HMAC-SHA1 computation. -/
def providerPost (pkey psecret url body : Bytes) : ProviderOutcome :=
  let data := parse_qs body true
  match lookupFirst data oauthSigKey with
  | none => .keyError oauthSigKey
  | some supplied =>
    if supplied = Value.one (providerRecomputedSig psecret url (eraseKey data oauthSigKey))
    then .accepted toolHtml
    else .rejected 401 invalidSignatureReason

/-! ### Lemmas: percent-codec round trip -/

theorem hexDigit_ne_amp_eq (d : Nat) : hexDigit d ≠ 38 ∧ hexDigit d ≠ 61 := by
  unfold hexDigit; split <;> omega

theorem isSafeByte_facts {b : Nat} (h : isSafeByte b = true) :
    b ≠ 37 ∧ b ≠ 43 ∧ b ≠ 32 ∧ b ≠ 38 ∧ b ≠ 61 := by
  simp only [isSafeByte, decide_eq_true_eq] at h; omega

theorem isHexB_hexDigit {d : Nat} (h : d < 16) : isHexB (hexDigit d) = true := by
  unfold isHexB hexDigit
  rw [decide_eq_true_eq]
  by_cases h10 : d < 10
  · rw [if_pos h10]; omega
  · rw [if_neg h10]; omega

theorem hexVal_hexDigit {d : Nat} (h : d < 16) : hexVal (hexDigit d) = d := by
  unfold hexVal hexDigit
  by_cases h10 : d < 10
  · rw [if_pos h10, if_pos (by omega)]; omega
  · rw [if_neg h10, if_neg (by omega), if_pos (by omega)]; omega

theorem mem_quotePlus_ne {s : Bytes} {c : Nat} (hc : c ∈ quotePlus s) :
    c ≠ 38 ∧ c ≠ 61 := by
  induction s with
  | nil => simp [quotePlus] at hc
  | cons b rest ih =>
    simp only [quotePlus, List.mem_append] at hc
    rcases hc with hc | hc
    · by_cases h32 : b = 32
      · rw [if_pos h32] at hc
        simp only [List.mem_singleton] at hc; omega
      · rw [if_neg h32] at hc
        by_cases hsafe : isSafeByte b = true
        · rw [if_pos hsafe] at hc
          simp only [List.mem_singleton] at hc
          subst hc
          exact ⟨(isSafeByte_facts hsafe).2.2.2.1, (isSafeByte_facts hsafe).2.2.2.2⟩
        · rw [if_neg hsafe] at hc
          simp only [List.mem_cons, List.not_mem_nil, or_false] at hc
          rcases hc with rfl | rfl | rfl
          · omega
          · exact hexDigit_ne_amp_eq _
          · exact hexDigit_ne_amp_eq _
    · exact ih hc

theorem unquotePlus_cons_other {b : Nat} (h43 : b ≠ 43) (h37 : b ≠ 37) (rest : Bytes) :
    unquotePlus (b :: rest) = b :: unquotePlus rest := by
  conv_lhs => rw [unquotePlus.eq_def]
  split
  · simp_all
  · next heq => rw [List.cons.injEq] at heq; omega
  · next heq => rw [List.cons.injEq] at heq; omega
  · next heq => rw [List.cons.injEq] at heq; rw [← heq.1, ← heq.2]

theorem unquotePlus_quotePlus {s : Bytes} (h : ValidB s) :
    unquotePlus (quotePlus s) = s := by
  induction s with
  | nil => rfl
  | cons b rest ih =>
    have hb : b < 256 := h b (List.mem_cons_self _ _)
    have ihr := ih (fun x hx => h x (List.mem_cons_of_mem _ hx))
    simp only [quotePlus]
    by_cases h32 : b = 32
    · subst h32
      rw [if_pos rfl, List.singleton_append,
        show unquotePlus (43 :: quotePlus rest) = 32 :: unquotePlus (quotePlus rest) from rfl,
        ihr]
    · rw [if_neg h32]
      by_cases hsafe : isSafeByte b = true
      · rw [if_pos hsafe, List.singleton_append,
          unquotePlus_cons_other (isSafeByte_facts hsafe).2.1 (isSafeByte_facts hsafe).1, ihr]
      · rw [if_neg hsafe]
        have hd1 : b / 16 < 16 := by omega
        have hd2 : b % 16 < 16 := by omega
        rw [List.cons_append, List.cons_append, List.cons_append, List.nil_append,
          show ∀ x y r, unquotePlus (37 :: x :: y :: r) =
            if isHexB x && isHexB y then (hexVal x * 16 + hexVal y) :: unquotePlus r
            else 37 :: unquotePlus (x :: y :: r) from fun x y r => rfl,
          if_pos (by rw [isHexB_hexDigit hd1, isHexB_hexDigit hd2]; rfl),
          hexVal_hexDigit hd1, hexVal_hexDigit hd2, ihr]
        congr 1; omega

/-! ### Lemmas: query-string round trip -/

/-- All names and values of a pair list are genuine byte strings. -/
def ValidPairs (ps : Pairs) : Prop := ∀ p ∈ ps, ValidB p.1 ∧ ValidB p.2

instance (l : Bytes) : Decidable (ValidB l) :=
  inferInstanceAs (Decidable (∀ b ∈ l, b < 256))

instance (ps : Pairs) : Decidable (ValidPairs ps) :=
  inferInstanceAs (Decidable (∀ p ∈ ps, ValidB p.1 ∧ ValidB p.2))

theorem splitOn_ne_nil (c : Nat) (l : Bytes) : splitOn c l ≠ [] := by
  induction l with
  | nil => simp [splitOn]
  | cons b rest ih =>
    simp only [splitOn]
    by_cases hb : b = c
    · rw [if_pos hb]; simp
    · rw [if_neg hb]
      cases hs : splitOn c rest with
      | nil => exact absurd hs ih
      | cons s ss => simp

theorem splitOn_no_sep {c : Nat} {l : Bytes} (h : c ∉ l) : splitOn c l = [l] := by
  induction l with
  | nil => rfl
  | cons b rest ih =>
    have hb : b ≠ c := fun hbc => h (hbc ▸ List.mem_cons_self _ _)
    have hr := ih (fun hm => h (List.mem_cons_of_mem _ hm))
    simp only [splitOn, if_neg hb, hr]

theorem splitOn_cons (c b : Nat) (rest : Bytes) :
    splitOn c (b :: rest) =
      if b = c then [] :: splitOn c rest
      else
        match splitOn c rest with
        | s :: ss => (b :: s) :: ss
        | [] => [[b]] := rfl

theorem splitOn_append (c : Nat) (x y : Bytes) :
    splitOn c (x ++ c :: y) = splitOn c x ++ splitOn c y := by
  induction x with
  | nil => rw [List.nil_append, splitOn_cons, if_pos rfl]; rfl
  | cons b rest ih =>
    rw [List.cons_append, splitOn_cons, splitOn_cons c b rest]
    by_cases hb : b = c
    · rw [if_pos hb, if_pos hb, ih, List.cons_append]
    · rw [if_neg hb, if_neg hb, ih]
      cases hs : splitOn c rest with
      | nil => exact absurd hs (splitOn_ne_nil c rest)
      | cons s ss => rfl

theorem splitFirst_no_sep {c : Nat} {l : Bytes} (h : c ∉ l) : splitFirst c l = none := by
  induction l with
  | nil => rfl
  | cons b rest ih =>
    have hb : b ≠ c := fun hbc => h (hbc ▸ List.mem_cons_self _ _)
    simp only [splitFirst, if_neg hb, ih (fun hm => h (List.mem_cons_of_mem _ hm))]
    rfl

theorem splitFirst_cons (c b : Nat) (rest : Bytes) :
    splitFirst c (b :: rest) =
      if b = c then some ([], rest)
      else (splitFirst c rest).map (fun p => (b :: p.1, p.2)) := rfl

theorem splitFirst_append {c : Nat} {a : Bytes} (b : Bytes) (h : c ∉ a) :
    splitFirst c (a ++ c :: b) = some (a, b) := by
  induction a with
  | nil => rw [List.nil_append, splitFirst_cons, if_pos rfl]
  | cons x rest ih =>
    have hx : x ≠ c := fun hbc => h (hbc ▸ List.mem_cons_self _ _)
    rw [List.cons_append, splitFirst_cons, if_neg hx,
      ih (fun hm => h (List.mem_cons_of_mem _ hm))]
    rfl

theorem pairSeg_ne_nil (p : Bytes × Bytes) : pairSeg p ≠ [] := by
  unfold pairSeg
  intro h
  have := congrArg List.length h
  simp at this

theorem amp_not_mem_pairSeg (p : Bytes × Bytes) : 38 ∉ pairSeg p := by
  unfold pairSeg
  intro hm
  rcases List.mem_append.mp hm with hm | hm
  · exact (mem_quotePlus_ne hm).1 rfl
  · rcases List.mem_cons.mp hm with h61 | hm
    · omega
    · exact (mem_quotePlus_ne hm).1 rfl

theorem parseSeg_pairSeg {p : Bytes × Bytes} (hk : ValidB p.1) (hv : ValidB p.2) :
    parseSeg true (pairSeg p) = some p := by
  have h61 : (61 : Nat) ∉ quotePlus p.1 := fun hm => (mem_quotePlus_ne hm).2 rfl
  unfold parseSeg
  rw [if_neg (pairSeg_ne_nil p),
    show pairSeg p = quotePlus p.1 ++ 61 :: quotePlus p.2 from rfl,
    splitFirst_append _ h61]
  show (if quotePlus p.2 ≠ [] ∨ true = true then
    some (unquotePlus (quotePlus p.1), unquotePlus (quotePlus p.2)) else none) = some p
  rw [if_pos (Or.inr rfl), unquotePlus_quotePlus hk, unquotePlus_quotePlus hv]

theorem parseQsl_urlencodePairs {ps : Pairs} (h : ValidPairs ps) :
    parseQsl (urlencodePairs ps) true = ps := by
  induction ps with
  | nil => rfl
  | cons p rest ih =>
    have hp := h p (List.mem_cons_self _ _)
    have hrest : ValidPairs rest := fun q hq => h q (List.mem_cons_of_mem _ hq)
    cases rest with
    | nil =>
      show (splitOn 38 (joinAmp [pairSeg p])).filterMap (parseSeg true) = [p]
      rw [show joinAmp [pairSeg p] = pairSeg p from rfl,
        splitOn_no_sep (amp_not_mem_pairSeg p)]
      simp only [List.filterMap_cons, List.filterMap_nil, parseSeg_pairSeg hp.1 hp.2]
    | cons q qs =>
      show (splitOn 38 (joinAmp (pairSeg p :: pairSeg q :: (qs.map pairSeg)))).filterMap
          (parseSeg true) = p :: q :: qs
      rw [show joinAmp (pairSeg p :: pairSeg q :: (qs.map pairSeg)) =
          pairSeg p ++ 38 :: joinAmp (pairSeg q :: (qs.map pairSeg)) from rfl,
        splitOn_append, splitOn_no_sep (amp_not_mem_pairSeg p), List.filterMap_append]
      simp only [List.filterMap_cons, List.filterMap_nil, parseSeg_pairSeg hp.1 hp.2]
      exact congrArg _ (ih hrest)

theorem parseQsl_append_field (x y : Bytes) (kb : Bool) :
    parseQsl (x ++ 38 :: y) kb = parseQsl x kb ++ parseQsl y kb := by
  unfold parseQsl
  rw [splitOn_append, List.filterMap_append]

/-! ### Lemmas: grouping (dict building) -/

/-- All values of a key in a pair list, in occurrence order. -/
def valuesOf (l : Pairs) (k : Bytes) : List Bytes :=
  (l.filter (fun p => decide (p.1 = k))).map Prod.snd

/-- Recursive characterization of first-occurrence grouping, with explicit
fuel so the recursion is structural. -/
def groupGo : Nat → Pairs → Groups
  | 0, _ => []
  | _ + 1, [] => []
  | fuel + 1, (k, v) :: rest =>
    (k, v :: valuesOf rest k) :: groupGo fuel (rest.filter (fun p => decide (¬ p.1 = k)))

/-- First-occurrence grouping, recursive form. -/
def groupRec (l : Pairs) : Groups := groupGo l.length l

theorem groupGo_nil (n : Nat) : groupGo n [] = [] := by cases n <;> rfl

theorem groupGo_eq_groupRec :
    ∀ (fuel : Nat) (l : Pairs), l.length ≤ fuel → groupGo fuel l = groupRec l := by
  intro fuel
  induction fuel using Nat.strong_induction_on with
  | _ fuel ih =>
    intro l hl
    match fuel, l with
    | 0, [] => rfl
    | 0, p :: rest => simp at hl
    | n + 1, [] => rw [groupGo_nil]; rfl
    | n + 1, (k, v) :: rest =>
      have hr : rest.length ≤ n := by simpa using hl
      have hf : (rest.filter (fun p => decide (¬ p.1 = k))).length ≤ rest.length :=
        List.length_filter_le _ _
      have step : groupGo n (rest.filter (fun p => decide (¬ p.1 = k))) =
          groupGo rest.length (rest.filter (fun p => decide (¬ p.1 = k))) := by
        rw [ih n (Nat.lt_succ_self n) _ (le_trans hf hr),
          ih rest.length (Nat.lt_succ_of_le hr) _ hf]
      show (k, v :: valuesOf rest k) :: groupGo n _ = groupRec ((k, v) :: rest)
      rw [step]; rfl

theorem groupRec_cons (k v : Bytes) (rest : Pairs) :
    groupRec ((k, v) :: rest) =
      (k, v :: valuesOf rest k) :: groupRec (rest.filter (fun p => decide (¬ p.1 = k))) := by
  show (k, v :: valuesOf rest k) :: groupGo rest.length _ = _
  rw [groupGo_eq_groupRec rest.length _ (List.length_filter_le _ _)]

theorem groupRec_ind {P : Pairs → Prop} (h0 : P [])
    (h1 : ∀ k v rest, P (rest.filter (fun p => decide (¬ p.1 = k))) → P ((k, v) :: rest)) :
    ∀ l, P l := by
  have key : ∀ n (l : Pairs), l.length ≤ n → P l := by
    intro n
    induction n with
    | zero =>
      intro l hl
      rw [List.length_eq_zero.mp (Nat.le_zero.mp hl)]
      exact h0
    | succ n ih =>
      intro l hl
      cases l with
      | nil => exact h0
      | cons p rest =>
        obtain ⟨k, v⟩ := p
        exact h1 k v rest
          (ih _ (le_trans (List.length_filter_le _ _) (by simpa using hl)))
  exact fun l => key l.length l le_rfl

theorem valuesOf_nil (k : Bytes) : valuesOf [] k = [] := rfl

theorem valuesOf_cons (k x v : Bytes) (rest : Pairs) :
    valuesOf ((k, v) :: rest) x =
      if k = x then v :: valuesOf rest x else valuesOf rest x := by
  unfold valuesOf
  rw [List.filter_cons]
  by_cases hkx : k = x
  · rw [if_pos (by simpa using hkx), if_pos hkx]; rfl
  · rw [if_neg (by simpa using hkx), if_neg hkx]

theorem valuesOf_append (l m : Pairs) (k : Bytes) :
    valuesOf (l ++ m) k = valuesOf l k ++ valuesOf m k := by
  unfold valuesOf
  rw [List.filter_append, List.map_append]

theorem containsKeyB_map_update (acc : Groups) (k v x : Bytes) :
    containsKeyB (acc.map (fun g => if g.1 = k then (g.1, g.2 ++ [v]) else g)) x =
      containsKeyB acc x := by
  unfold containsKeyB
  rw [List.any_map]
  congr 1
  funext g
  by_cases hg : g.1 = k
  · simp [Function.comp, hg]
  · simp [Function.comp, hg]

theorem containsKeyB_append_single (acc : Groups) (k : Bytes) (vs : List Bytes) (x : Bytes) :
    containsKeyB (acc ++ [(k, vs)]) x = (containsKeyB acc x || decide (k = x)) := by
  unfold containsKeyB
  rw [List.any_append]
  simp

theorem containsKeyB_eq_false_forall {β : Type} {acc : List (Bytes × β)} {k : Bytes}
    (h : containsKeyB acc k = false) : ∀ g ∈ acc, g.1 ≠ k := by
  intro g hg
  have := List.any_eq_false.mp h g hg
  simpa using this

theorem foldl_addPair_eq (l : Pairs) : ∀ acc : Groups,
    l.foldl addPair acc =
      acc.map (fun g => (g.1, g.2 ++ valuesOf l g.1)) ++
        groupRec (l.filter (fun p => ! containsKeyB acc p.1)) := by
  induction l with
  | nil =>
    intro acc
    simp [valuesOf_nil, groupRec, groupGo_nil]
  | cons p rest ih =>
    intro acc
    obtain ⟨k, v⟩ := p
    rw [List.foldl_cons, ih (addPair acc (k, v))]
    unfold addPair
    dsimp only
    by_cases hc : containsKeyB acc k = true
    · rw [if_pos hc]
      congr 1
      · rw [List.map_map]
        refine List.map_congr_left (fun g _ => ?_)
        simp only [Function.comp]
        by_cases hg : g.1 = k
        · rw [if_pos hg, valuesOf_cons, if_pos hg.symm]
          simp
        · rw [if_neg hg, valuesOf_cons, if_neg (fun hk => hg hk.symm)]
      · have h1 := fun x => containsKeyB_map_update acc k v x
        simp only [h1]
        rw [List.filter_cons, if_neg (by simp [hc])]
    · have hc' : containsKeyB acc k = false := by
        cases h : containsKeyB acc k
        · rfl
        · exact absurd h hc
      rw [if_neg hc]
      have hmem := containsKeyB_eq_false_forall hc'
      rw [List.map_append, List.append_assoc]
      congr 1
      · refine List.map_congr_left (fun g hg => ?_)
        rw [valuesOf_cons, if_neg (fun hk => hmem g hg hk.symm)]
      · rw [List.filter_cons,
          show (! containsKeyB acc k) = true by rw [hc']; rfl, if_pos rfl, groupRec_cons]
        show List.map _ [(k, [v])] ++ _ = _
        rw [show List.map (fun g => (g.1, g.2 ++ valuesOf rest g.1)) [(k, [v])] =
          [(k, [v] ++ valuesOf rest k)] from rfl]
        have hvals : valuesOf (rest.filter (fun p => ! containsKeyB acc p.1)) k =
            valuesOf rest k := by
          unfold valuesOf
          rw [List.filter_filter]
          refine congrArg _ (List.filter_congr (fun p _ => ?_))
          by_cases hp : p.1 = k
          · rw [hp]
            rw [show (! containsKeyB acc k) = true by rw [hc']; rfl]
            simp
          · simp [hp]
        have hfilters : (rest.filter (fun p => ! containsKeyB acc p.1)).filter
              (fun p => decide (¬ p.1 = k)) =
            rest.filter (fun p => ! containsKeyB (acc ++ [(k, [v])]) p.1) := by
          rw [List.filter_filter]
          refine List.filter_congr (fun p _ => ?_)
          rw [containsKeyB_append_single]
          by_cases hp : p.1 = k
          · simp [hp]
          · have hk : ¬ (k = p.1) := fun hk => hp hk.symm
            simp [hp, hk]
        rw [hvals, hfilters]
        rfl

theorem groupPairs_eq_groupRec (l : Pairs) : groupPairs l = groupRec l := by
  unfold groupPairs
  rw [foldl_addPair_eq l []]
  simp only [List.map_nil, List.nil_append]
  refine congrArg _ (List.filter_eq_self.mpr (fun p _ => rfl))

theorem valuesOf_filter_ne {l : Pairs} {k k' : Bytes} (h : k ≠ k') :
    valuesOf (l.filter (fun p => decide (¬ p.1 = k'))) k = valuesOf l k := by
  unfold valuesOf
  rw [List.filter_filter]
  refine congrArg _ (List.filter_congr (fun p _ => ?_))
  by_cases hp : p.1 = k
  · simp [hp, h]
  · simp [hp]

theorem lookupFirst_cons {β : Type} (k0 : Bytes) (v : β) (rest : List (Bytes × β))
    (k : Bytes) :
    lookupFirst ((k0, v) :: rest) k = if k0 = k then some v else lookupFirst rest k := rfl

theorem lookupFirst_groupRec (l : Pairs) (k : Bytes) :
    lookupFirst (groupRec l) k =
      match valuesOf l k with
      | [] => none
      | vs => some vs := by
  induction l using groupRec_ind with
  | h0 => rfl
  | h1 k0 v rest ih =>
    rw [groupRec_cons, lookupFirst_cons]
    by_cases hk : k0 = k
    · rw [if_pos hk, valuesOf_cons, if_pos hk]
      subst hk; rfl
    · rw [if_neg hk, ih, valuesOf_filter_ne (fun h => hk h.symm), valuesOf_cons, if_neg hk]

theorem mem_groupRec_key (l : Pairs) : ∀ g ∈ groupRec l, g.1 ∈ l.map Prod.fst := by
  induction l using groupRec_ind with
  | h0 => intro g hg; simp [groupRec, groupGo] at hg
  | h1 k0 v rest ih =>
    intro g hg
    rw [groupRec_cons] at hg
    rcases List.mem_cons.mp hg with rfl | hg
    · exact List.mem_cons_self _ _
    · have := ih g hg
      rcases List.mem_map.mp this with ⟨p, hp, hpk⟩
      exact List.mem_cons_of_mem _
        (List.mem_map.mpr ⟨p, List.mem_of_mem_filter hp, hpk⟩)

theorem filter_swap {α : Type} (p q : α → Bool) (l : List α) :
    (l.filter p).filter q = (l.filter q).filter p := by
  rw [List.filter_filter, List.filter_filter]
  exact List.filter_congr (fun a _ => by rw [Bool.and_comm])

theorem groupRec_filter_comm (l : Pairs) (k : Bytes) :
    groupRec (l.filter (fun p => decide (¬ p.1 = k))) =
      (groupRec l).filter (fun g => decide (¬ g.1 = k)) := by
  induction l using groupRec_ind with
  | h0 => rfl
  | h1 k0 v rest ih =>
    rw [List.filter_cons, groupRec_cons, List.filter_cons]
    by_cases hk : k0 = k
    · subst hk
      rw [if_neg (by simp), if_neg (by simp)]
      refine (List.filter_eq_self.mpr (fun g hg => ?_)).symm
      have := mem_groupRec_key _ g hg
      rcases List.mem_map.mp this with ⟨p, hp, hpk⟩
      have hpne : decide (¬ p.1 = k0) = true := (List.mem_filter.mp hp).2
      simp only [decide_eq_true_eq] at hpne
      simpa [← hpk] using hpne
    · rw [if_pos (by simpa using hk), if_pos (by simpa using hk), groupRec_cons,
        valuesOf_filter_ne hk, filter_swap, ih]

/-! ### Lemmas: expansion, collapse, and permutation -/

/-- Expand grouped parameters back to individual pairs. -/
def expandGroups (gs : Groups) : Pairs :=
  gs.flatMap (fun g => g.2.map (fun v => (g.1, v)))

theorem expandVal_collapseVal (k : Bytes) (vs : List Bytes) :
    expandVal k (collapseVal vs) = vs.map (fun v => (k, v)) := by
  match vs with
  | [] => rfl
  | [v] => rfl
  | v1 :: v2 :: rest => rfl

theorem expandDict_map_collapse (gs : Groups) :
    expandDict (gs.map (fun g => (g.1, collapseVal g.2))) = expandGroups gs := by
  induction gs with
  | nil => rfl
  | cons g rest ih =>
    show expandVal g.1 (collapseVal g.2) ++ expandDict _ =
      g.2.map (fun v => (g.1, v)) ++ expandGroups rest
    rw [expandVal_collapseVal, ih]

theorem filter_key_map_self (l : Pairs) (k : Bytes) :
    (l.filter (fun p => decide (p.1 = k))).map (fun p => (k, p.2)) =
      l.filter (fun p => decide (p.1 = k)) := by
  refine List.map_congr_left (fun p hp => ?_) |>.trans (List.map_id _)
  have : decide (p.1 = k) = true := (List.mem_filter.mp hp).2
  simp only [decide_eq_true_eq] at this
  rw [← this]
  rfl

theorem expandGroups_groupRec_perm (l : Pairs) :
    List.Perm (expandGroups (groupRec l)) l := by
  induction l using groupRec_ind with
  | h0 => exact List.Perm.refl _
  | h1 k v rest ih =>
    rw [groupRec_cons]
    show List.Perm ((k, v) :: ((valuesOf rest k).map (fun w => (k, w)) ++
      expandGroups (groupRec (rest.filter (fun p => decide (¬ p.1 = k))))) ) _
    have hv : (valuesOf rest k).map (fun w => (k, w)) =
        rest.filter (fun p => decide (p.1 = k)) := by
      unfold valuesOf
      rw [List.map_map]
      exact filter_key_map_self rest k
    rw [hv]
    refine List.Perm.cons _ ?_
    refine (List.Perm.append_left _ ih).trans ?_
    have := List.filter_append_perm (fun p => decide (p.1 = k)) rest
    refine List.Perm.trans ?_ this
    refine List.Perm.append_left _ ?_
    refine List.Perm.of_eq (List.filter_congr (fun p _ => ?_))
    rw [decide_not]

/-! ### Lemmas: the sort order and permutation invariance of signing -/

theorem bytesLeB_cons (x y : Nat) (as bs : Bytes) :
    bytesLeB (x :: as) (y :: bs) =
      if x < y then true else if x = y then bytesLeB as bs else false := rfl

theorem bytesLeB_total : ∀ (a b : Bytes), bytesLeB a b = true ∨ bytesLeB b a = true := by
  intro a
  induction a with
  | nil => intro b; left; rfl
  | cons x as ih =>
    intro b
    cases b with
    | nil => right; rfl
    | cons y bs =>
      rw [bytesLeB_cons, bytesLeB_cons]
      rcases Nat.lt_trichotomy x y with h | h | h
      · left; rw [if_pos h]
      · subst h
        rw [if_neg (Nat.lt_irrefl x), if_pos rfl, if_neg (Nat.lt_irrefl x), if_pos rfl]
        exact ih bs
      · right; rw [if_pos h]

theorem bytesLeB_trans : ∀ (a b c : Bytes),
    bytesLeB a b = true → bytesLeB b c = true → bytesLeB a c = true := by
  intro a
  induction a with
  | nil => intro b c _ _; rfl
  | cons x as ih =>
    intro b c hab hbc
    cases b with
    | nil => exact absurd hab (by simp [bytesLeB])
    | cons y bs =>
      cases c with
      | nil => exact absurd hbc (by simp [bytesLeB])
      | cons z cs =>
        rw [bytesLeB_cons] at hab hbc ⊢
        by_cases h1 : x < y
        · by_cases h2 : y < z
          · rw [if_pos (Nat.lt_trans h1 h2)]
          · rw [if_neg h2] at hbc
            by_cases h3 : y = z
            · rw [if_pos (h3 ▸ h1)]
            · rw [if_neg h3] at hbc; exact absurd hbc (by simp)
        · rw [if_neg h1] at hab
          by_cases h4 : x = y
          · rw [if_pos h4] at hab
            subst h4
            by_cases h2 : x < z
            · rw [if_pos h2]
            · rw [if_neg h2] at hbc ⊢
              by_cases h3 : x = z
              · subst h3
                rw [if_pos rfl] at hbc ⊢
                exact ih bs cs hab hbc
              · rw [if_neg h3] at hbc; exact absurd hbc (by simp)
          · rw [if_neg h4] at hab; exact absurd hab (by simp)

theorem bytesLeB_antisymm : ∀ (a b : Bytes),
    bytesLeB a b = true → bytesLeB b a = true → a = b := by
  intro a
  induction a with
  | nil =>
    intro b _ hba
    cases b with
    | nil => rfl
    | cons y bs => exact absurd hba (by simp [bytesLeB])
  | cons x as ih =>
    intro b hab hba
    cases b with
    | nil => exact absurd hab (by simp [bytesLeB])
    | cons y bs =>
      rw [bytesLeB_cons] at hab hba
      by_cases h1 : x < y
      · rw [if_neg (Nat.lt_asymm h1), if_neg (by omega)] at hba
        exact absurd hba (by simp)
      · rw [if_neg h1] at hab
        by_cases h2 : x = y
        · subst h2
          rw [if_pos rfl] at hab
          rw [if_neg h1, if_pos rfl] at hba
          rw [ih bs hab hba]
        · rw [if_neg h2] at hab; exact absurd hab (by simp)

instance : IsTotal (Bytes × Bytes) pairLe := by
  refine ⟨fun p q => ?_⟩
  unfold pairLe pairLeB
  by_cases h : p.1 = q.1
  · rw [if_pos h, if_pos h.symm]; exact bytesLeB_total _ _
  · rw [if_neg h, if_neg (fun hh => h hh.symm)]; exact bytesLeB_total _ _

instance : IsTrans (Bytes × Bytes) pairLe := by
  refine ⟨fun p q r hpq hqr => ?_⟩
  unfold pairLe pairLeB at hpq hqr ⊢
  by_cases h1 : p.1 = q.1 <;> by_cases h2 : q.1 = r.1
  · rw [if_pos h1] at hpq
    rw [if_pos h2] at hqr
    rw [if_pos (h1.trans h2)]
    exact bytesLeB_trans _ _ _ hpq hqr
  · rw [if_pos h1] at hpq
    rw [if_neg h2] at hqr
    rw [if_neg (fun hh => h2 (h1 ▸ hh)), h1]
    exact hqr
  · rw [if_neg h1] at hpq
    rw [if_pos h2] at hqr
    rw [← h2, if_neg h1]
    exact hpq
  · rw [if_neg h1] at hpq
    rw [if_neg h2] at hqr
    by_cases h3 : p.1 = r.1
    · exact absurd (bytesLeB_antisymm _ _ hpq (h3 ▸ hqr)) h1
    · rw [if_neg h3]
      exact bytesLeB_trans _ _ _ hpq hqr

instance : IsAntisymm (Bytes × Bytes) pairLe := by
  refine ⟨fun p q hpq hqp => ?_⟩
  unfold pairLe pairLeB at hpq hqp
  by_cases h : p.1 = q.1
  · rw [if_pos h] at hpq
    rw [if_pos h.symm] at hqp
    exact Prod.ext h (bytesLeB_antisymm _ _ hpq hqp)
  · rw [if_neg h] at hpq
    rw [if_neg (fun hh => h hh.symm)] at hqp
    exact absurd (bytesLeB_antisymm _ _ hpq hqp) h

theorem normalizeParams_perm {ps qs : Pairs} (h : List.Perm ps qs) :
    normalizeParams ps = normalizeParams qs := by
  unfold normalizeParams
  have key : List.insertionSort pairLe (ps.map (fun p => (escapeO p.1, escapeO p.2))) =
      List.insertionSort pairLe (qs.map (fun p => (escapeO p.1, escapeO p.2))) := by
    refine List.eq_of_perm_of_sorted ?_ (List.sorted_insertionSort pairLe _)
      (List.sorted_insertionSort pairLe _)
    exact ((List.perm_insertionSort pairLe _).trans
      (h.map (fun p => (escapeO p.1, escapeO p.2)))).trans
      (List.perm_insertionSort pairLe _).symm
  rw [key]

theorem oauthSignature_perm {ps qs : Pairs} (h : List.Perm ps qs) (m u s : Bytes) :
    oauthSignature m u ps s = oauthSignature m u qs s := by
  unfold oauthSignature sigBaseString collectParams
  rw [normalizeParams_perm (h.filter (fun p => decide (¬ p.1 = oauthSigKey)))]

/-! ### Lemmas: byte validity and dictionary operations -/

theorem b64char_lt (i : Nat) : b64char i < 256 := by
  have halpha : ∀ x ∈ base64Alphabet, x < 256 := by decide
  unfold b64char List.getD
  rcases h : base64Alphabet.get? i with - | y
  · show (65 : Nat) < 256; omega
  · show y < 256; exact halpha y (List.get?_mem h)

theorem ValidB_base64 : ∀ (l : Bytes), ValidB (base64 l)
  | [] => by intro b hb; simp [base64] at hb
  | [a] => by
    intro b hb
    simp only [base64, List.mem_cons, List.not_mem_nil, or_false] at hb
    rcases hb with rfl | rfl | rfl | rfl
    · exact b64char_lt _
    · exact b64char_lt _
    · omega
    · omega
  | [a, b'] => by
    intro b hb
    simp only [base64, List.mem_cons, List.not_mem_nil, or_false] at hb
    rcases hb with rfl | rfl | rfl | rfl
    · exact b64char_lt _
    · exact b64char_lt _
    · exact b64char_lt _
    · omega
  | a :: b' :: c :: rest => by
    intro x hx
    rcases List.mem_cons.mp hx with rfl | hx
    · exact b64char_lt _
    rcases List.mem_cons.mp hx with rfl | hx
    · exact b64char_lt _
    rcases List.mem_cons.mp hx with rfl | hx
    · exact b64char_lt _
    rcases List.mem_cons.mp hx with rfl | hx
    · exact b64char_lt _
    exact ValidB_base64 rest x hx

theorem ValidB_oauthSignature (m u : Bytes) (ps : Pairs) (s : Bytes) :
    ValidB (oauthSignature m u ps s) := ValidB_base64 _

theorem ValidPairs_append {l m : Pairs} (hl : ValidPairs l) (hm : ValidPairs m) :
    ValidPairs (l ++ m) := by
  intro p hp
  rcases List.mem_append.mp hp with h | h
  · exact hl p h
  · exact hm p h

theorem ValidPairs_filter {l : Pairs} (q : Bytes × Bytes → Bool) (hl : ValidPairs l) :
    ValidPairs (l.filter q) :=
  fun p hp => hl p (List.mem_of_mem_filter hp)

theorem ValidPairs_perm {l m : Pairs} (h : List.Perm l m) (hl : ValidPairs l) :
    ValidPairs m :=
  fun p hp => hl p (h.symm.subset hp)

theorem lookupFirst_some_value {β : Type} {e : List (Bytes × β)} {k : Bytes} {v : β}
    (h : lookupFirst e k = some v) : (k, v) ∈ e := by
  induction e with
  | nil => exact absurd h (by simp [lookupFirst])
  | cons q rest ih =>
    obtain ⟨k0, v0⟩ := q
    rw [lookupFirst_cons] at h
    by_cases hk : k0 = k
    · rw [if_pos hk] at h
      subst hk
      rw [Option.some.injEq] at h
      rw [← h]
      exact List.mem_cons_self _ _
    · rw [if_neg hk] at h
      exact List.mem_cons_of_mem _ (ih h)

/-! ### Lemmas: merge and lookup -/

theorem lookupFirst_append {β : Type} (A B : List (Bytes × β)) (k : Bytes) :
    lookupFirst (A ++ B) k =
      match lookupFirst A k with
      | some v => some v
      | none => lookupFirst B k := by
  induction A with
  | nil => rfl
  | cons p rest ih =>
    obtain ⟨k0, v0⟩ := p
    rw [List.cons_append, lookupFirst_cons, lookupFirst_cons]
    by_cases hk : k0 = k
    · rw [if_pos hk, if_pos hk]
    · rw [if_neg hk, if_neg hk, ih]

theorem lookupFirst_merge_mapped (d e : Pairs) (k : Bytes) :
    lookupFirst (d.map (fun p => (p.1, (lookupFirst e p.1).getD p.2))) k =
      (lookupFirst d k).map (fun v => (lookupFirst e k).getD v) := by
  induction d with
  | nil => rfl
  | cons p rest ih =>
    obtain ⟨k0, v0⟩ := p
    rw [List.map_cons, lookupFirst_cons, lookupFirst_cons]
    by_cases hk : k0 = k
    · subst hk
      rw [if_pos rfl, if_pos rfl, Option.map_some']
    · rw [if_neg hk, if_neg hk, ih]

theorem lookupFirst_filter_absent {β : Type} (e : List (Bytes × β)) (q : Bytes × β → Bool)
    (k : Bytes) (hq : ∀ p, p.1 = k → q p = false) :
    lookupFirst (e.filter q) k = none := by
  induction e with
  | nil => rfl
  | cons p rest ih =>
    rw [List.filter_cons]
    by_cases hp : q p = true
    · rw [if_pos hp, lookupFirst_cons]
      have hk : p.1 ≠ k := fun h => by rw [hq p h] at hp; exact Bool.false_ne_true hp
      rw [if_neg hk, ih]
    · rw [if_neg hp, ih]

theorem lookupFirst_filter_present {β : Type} (e : List (Bytes × β)) (q : Bytes × β → Bool)
    (k : Bytes) (hq : ∀ p, p.1 = k → q p = true) :
    lookupFirst (e.filter q) k = lookupFirst e k := by
  induction e with
  | nil => rfl
  | cons p rest ih =>
    rw [List.filter_cons, lookupFirst_cons]
    by_cases hk : p.1 = k
    · rw [if_pos (hq p hk), lookupFirst_cons, if_pos hk, if_pos hk]
    · by_cases hp : q p = true
      · rw [if_pos hp, lookupFirst_cons, if_neg hk, ih, if_neg hk]
      · rw [if_neg hp, ih, if_neg hk]

theorem lookupFirst_mergeDict (d e : Pairs) (k : Bytes) :
    lookupFirst (mergeDict d e) k =
      match lookupFirst e k with
      | some v => some v
      | none => lookupFirst d k := by
  unfold mergeDict
  rw [lookupFirst_append, lookupFirst_merge_mapped]
  rcases hd : lookupFirst d k with - | v <;> rcases he : lookupFirst e k with - | w
  · show lookupFirst (e.filter (fun q => decide (lookupFirst d q.1 = none))) k = none
    rw [lookupFirst_filter_present e _ k (fun p hp => by rw [hp, hd]; simp)]
    exact he
  · show lookupFirst (e.filter (fun q => decide (lookupFirst d q.1 = none))) k = some w
    rw [lookupFirst_filter_present e _ k (fun p hp => by rw [hp, hd]; simp)]
    exact he
  · rfl
  · rfl

theorem valuesOf_nil_iff (l : Pairs) (k : Bytes) :
    valuesOf l k = [] ↔ lookupFirst l k = none := by
  induction l with
  | nil => simp [valuesOf_nil, lookupFirst]
  | cons p rest ih =>
    obtain ⟨k0, v0⟩ := p
    rw [valuesOf_cons, lookupFirst_cons]
    by_cases hk : k0 = k
    · rw [if_pos hk, if_pos hk]
      simp
    · rw [if_neg hk, if_neg hk, ih]

theorem valuesOf_mem_key_ne {l : Pairs} {k : Bytes} (h : valuesOf l k = []) :
    ∀ p ∈ l, p.1 ≠ k := by
  intro p hp hpk
  induction l with
  | nil => simp at hp
  | cons q rest ih =>
    obtain ⟨k0, v0⟩ := q
    rw [valuesOf_cons] at h
    rcases List.mem_cons.mp hp with rfl | hp'
    · rw [if_pos hpk] at h
      simp at h
    · by_cases hk : k0 = k
      · rw [if_pos hk] at h; simp at h
      · rw [if_neg hk] at h
        exact ih h hp'

theorem lookupFirst_eraseKey_self (d : ParamDict) (k : Bytes) :
    lookupFirst (eraseKey d k) k = none := by
  unfold eraseKey
  refine lookupFirst_filter_absent d _ k (fun p hp => ?_)
  rw [hp]
  simp

/-! ### Lemmas: the signed-launch pipeline -/

theorem parse_qs_eq (qs : Bytes) (kb : Bool) :
    parse_qs qs kb = (groupRec (parseQsl qs kb)).map (fun g => (g.1, collapseVal g.2)) := by
  unfold parse_qs
  rw [groupPairs_eq_groupRec]

theorem providerPost_eq (pkey psecret url body : Bytes) :
    providerPost pkey psecret url body =
      match lookupFirst (parse_qs body true) oauthSigKey with
      | none => .keyError oauthSigKey
      | some supplied =>
        if supplied = Value.one (providerRecomputedSig psecret url
            (eraseKey (parse_qs body true) oauthSigKey))
        then .accepted toolHtml
        else .rejected 401 invalidSignatureReason := rfl

theorem lookupFirst_map_collapse (gs : Groups) (k : Bytes) :
    lookupFirst (gs.map (fun g => (g.1, collapseVal g.2))) k =
      (lookupFirst gs k).map collapseVal := by
  induction gs with
  | nil => rfl
  | cons g rest ih =>
    obtain ⟨k0, vs⟩ := g
    rw [List.map_cons, lookupFirst_cons, lookupFirst_cons]
    by_cases hk : k0 = k
    · rw [if_pos hk, if_pos hk, Option.map_some']
    · rw [if_neg hk, if_neg hk, ih]

/-- The full parameter list of the signed body, as assembled by the
consumer: payload, then the `oauth_*` parameters, then the signature. -/
def consumerFinalParams (key secret url : Bytes) (overrides : Pairs) (nonce ts : Bytes) :
    Pairs :=
  appendParams (getOauthParams nonce ts key ++
      [(oauthSigKey, oauthSignature (str2bytes "POST") url
        (appendParams (getOauthParams nonce ts key) (launchPayload overrides)) secret)])
    (launchPayload overrides)

theorem consumerSignedBody_eq (key secret url : Bytes) (overrides : Pairs)
    (nonce ts : Bytes) (hP : ValidPairs (launchPayload overrides)) :
    consumerSignedBody key secret url overrides nonce ts =
      urlencodePairs (consumerFinalParams key secret url overrides nonce ts) := by
  unfold consumerSignedBody signRequest generateLaunchRequestPayload consumerFinalParams
  dsimp only
  rw [parseQsl_urlencodePairs hP]

theorem ValidPairs_mergeDict {d e : Pairs} (hd : ValidPairs d) (he : ValidPairs e) :
    ValidPairs (mergeDict d e) := by
  intro p hp
  unfold mergeDict at hp
  rcases List.mem_append.mp hp with h | h
  · rcases List.mem_map.mp h with ⟨q, hq, rfl⟩
    refine ⟨(hd q hq).1, ?_⟩
    rcases hl : lookupFirst e q.1 with - | v
    · exact (hd q hq).2
    · exact (he _ (lookupFirst_some_value hl)).2
  · exact he p (List.mem_of_mem_filter h)

theorem ValidPairs_payloadDefaults : ValidPairs payloadDefaults := by decide

theorem ValidPairs_getOauthParams {nonce ts key : Bytes} (hn : ValidB nonce)
    (ht : ValidB ts) (hk : ValidB key) : ValidPairs (getOauthParams nonce ts key) := by
  intro p hp
  simp only [getOauthParams, List.mem_cons, List.not_mem_nil, or_false] at hp
  rcases hp with rfl | rfl | rfl | rfl | rfl
  · exact ⟨by show ValidB (str2bytes "oauth_nonce"); decide, hn⟩
  · exact ⟨by show ValidB (str2bytes "oauth_timestamp"); decide, ht⟩
  · exact ⟨by show ValidB (str2bytes "oauth_version"); decide,
      by show ValidB (str2bytes "1.0"); decide⟩
  · exact ⟨by show ValidB (str2bytes "oauth_signature_method"); decide,
      by show ValidB (str2bytes "HMAC-SHA1"); decide⟩
  · exact ⟨by show ValidB (str2bytes "oauth_consumer_key"); decide, hk⟩

theorem ValidPairs_appendParams {O B : Pairs} (hO : ValidPairs O) (hB : ValidPairs B) :
    ValidPairs (appendParams O B) := by
  unfold appendParams
  exact ValidPairs_append (ValidPairs_append (ValidPairs_filter _ hB)
    (ValidPairs_filter _ hB)) hO

theorem getOauthParams_key_ne (nonce ts key : Bytes) :
    ∀ p ∈ getOauthParams nonce ts key, p.1 ≠ oauthSigKey := by
  intro p hp
  simp only [getOauthParams, List.mem_cons, List.not_mem_nil, or_false] at hp
  rcases hp with rfl | rfl | rfl | rfl | rfl
  · show str2bytes "oauth_nonce" ≠ oauthSigKey; decide
  · show str2bytes "oauth_timestamp" ≠ oauthSigKey; decide
  · show str2bytes "oauth_version" ≠ oauthSigKey; decide
  · show str2bytes "oauth_signature_method" ≠ oauthSigKey; decide
  · show str2bytes "oauth_consumer_key" ≠ oauthSigKey; decide

theorem valuesOf_eq_nil_of_forall {l : Pairs} {k : Bytes} (h : ∀ p ∈ l, p.1 ≠ k) :
    valuesOf l k = [] := by
  unfold valuesOf
  rw [List.filter_eq_nil_iff.mpr (fun p hp => by simp [h p hp])]
  rfl

theorem filter_ne_key_of_forall {l : Pairs} {k : Bytes} (h : ∀ p ∈ l, p.1 ≠ k) :
    l.filter (fun p => decide (¬ p.1 = k)) = l :=
  List.filter_eq_self.mpr (fun p hp => by simp [h p hp])

theorem appendParams_filter_sig {O P : Pairs} (sig : Bytes)
    (hO : ∀ p ∈ O, p.1 ≠ oauthSigKey) (hP : ∀ p ∈ P, p.1 ≠ oauthSigKey) :
    (appendParams (O ++ [(oauthSigKey, sig)]) P).filter
        (fun p => decide (¬ p.1 = oauthSigKey)) =
      appendParams O P := by
  unfold appendParams
  rw [List.filter_append, List.filter_append, List.filter_append,
    filter_ne_key_of_forall (fun p hp => hP p (List.mem_of_mem_filter hp)),
    filter_ne_key_of_forall (fun p hp => hP p (List.mem_of_mem_filter hp)),
    filter_ne_key_of_forall hO,
    show List.filter (fun p => decide (¬ p.1 = oauthSigKey)) [(oauthSigKey, sig)] = []
      from by simp,
    List.append_nil]

theorem valuesOf_appendParams_sig {O P : Pairs} (sig : Bytes)
    (hO : ∀ p ∈ O, p.1 ≠ oauthSigKey) (hP : ∀ p ∈ P, p.1 ≠ oauthSigKey) :
    valuesOf (appendParams (O ++ [(oauthSigKey, sig)]) P) oauthSigKey = [sig] := by
  unfold appendParams
  rw [valuesOf_append, valuesOf_append, valuesOf_append,
    valuesOf_eq_nil_of_forall (fun p hp => hP p (List.mem_of_mem_filter hp)),
    valuesOf_eq_nil_of_forall (fun p hp => hP p (List.mem_of_mem_filter hp)),
    valuesOf_eq_nil_of_forall hO]
  simp [valuesOf_cons, valuesOf_nil]

theorem launchPayload_key_ne {overrides : Pairs}
    (hsig : lookupFirst overrides oauthSigKey = none) :
    ∀ p ∈ launchPayload overrides, p.1 ≠ oauthSigKey := by
  refine valuesOf_mem_key_ne ((valuesOf_nil_iff _ _).mpr ?_)
  unfold launchPayload
  rw [lookupFirst_mergeDict, hsig]
  decide

theorem providerPost_signed (pkey key secret secret' url : Bytes) (overrides : Pairs)
    (nonce ts : Bytes) (hkey : ValidB key) (hn : ValidB nonce) (ht : ValidB ts)
    (hov : ValidPairs overrides) (hsig : lookupFirst overrides oauthSigKey = none) :
    providerPost pkey secret' url (consumerSignedBody key secret url overrides nonce ts) =
      if oauthSignature (str2bytes "POST") url
          (appendParams (getOauthParams nonce ts key) (launchPayload overrides)) secret =
        oauthSignature (str2bytes "POST") url
          (appendParams (getOauthParams nonce ts key) (launchPayload overrides)) secret'
      then .accepted toolHtml
      else .rejected 401 invalidSignatureReason := by
  have hP : ValidPairs (launchPayload overrides) :=
    ValidPairs_mergeDict ValidPairs_payloadDefaults hov
  have hO : ValidPairs (getOauthParams nonce ts key) :=
    ValidPairs_getOauthParams hn ht hkey
  have hPk : ∀ p ∈ launchPayload overrides, p.1 ≠ oauthSigKey := launchPayload_key_ne hsig
  have hOk : ∀ p ∈ getOauthParams nonce ts key, p.1 ≠ oauthSigKey :=
    getOauthParams_key_ne nonce ts key
  have hF : ValidPairs (consumerFinalParams key secret url overrides nonce ts) := by
    unfold consumerFinalParams
    refine ValidPairs_appendParams (ValidPairs_append hO ?_) hP
    intro p hp
    rw [List.mem_singleton] at hp
    subst hp
    exact ⟨by show ValidB oauthSigKey; decide, ValidB_oauthSignature _ _ _ _⟩
  rw [consumerSignedBody_eq key secret url overrides nonce ts hP, providerPost_eq,
    parse_qs_eq, parseQsl_urlencodePairs hF]
  have hvals : valuesOf (consumerFinalParams key secret url overrides nonce ts)
      oauthSigKey =
      [oauthSignature (str2bytes "POST") url
        (appendParams (getOauthParams nonce ts key) (launchPayload overrides)) secret] :=
    valuesOf_appendParams_sig _ hOk hPk
  have hlook : lookupFirst ((groupRec (consumerFinalParams key secret url overrides
        nonce ts)).map (fun g => (g.1, collapseVal g.2))) oauthSigKey =
      some (Value.one (oauthSignature (str2bytes "POST") url
        (appendParams (getOauthParams nonce ts key) (launchPayload overrides)) secret)) := by
    rw [lookupFirst_map_collapse, lookupFirst_groupRec, hvals]
    rfl
  rw [hlook]
  have herase : eraseKey ((groupRec (consumerFinalParams key secret url overrides
        nonce ts)).map (fun g => (g.1, collapseVal g.2))) oauthSigKey =
      (groupRec (appendParams (getOauthParams nonce ts key)
        (launchPayload overrides))).map (fun g => (g.1, collapseVal g.2)) := by
    unfold eraseKey
    rw [List.filter_map]
    rw [show ((fun p => decide (¬ p.1 = oauthSigKey)) ∘
        (fun g => (g.1, collapseVal g.2))) = (fun g : Bytes × List Bytes =>
          decide (¬ g.1 = oauthSigKey)) from rfl]
    rw [← groupRec_filter_comm]
    rw [show (consumerFinalParams key secret url overrides nonce ts).filter
        (fun p => decide (¬ p.1 = oauthSigKey)) =
        appendParams (getOauthParams nonce ts key) (launchPayload overrides) from
      appendParams_filter_sig _ hOk hPk]
  rw [herase]
  have hrec : providerRecomputedSig secret' url
      ((groupRec (appendParams (getOauthParams nonce ts key)
        (launchPayload overrides))).map (fun g => (g.1, collapseVal g.2))) =
      oauthSignature (str2bytes "POST") url
        (appendParams (getOauthParams nonce ts key) (launchPayload overrides)) secret' := by
    unfold providerRecomputedSig urlencodeDoseq
    rw [expandDict_map_collapse]
    have hperm := expandGroups_groupRec_perm
      (appendParams (getOauthParams nonce ts key) (launchPayload overrides))
    have hvalid : ValidPairs (expandGroups (groupRec (appendParams
        (getOauthParams nonce ts key) (launchPayload overrides)))) :=
      ValidPairs_perm hperm.symm (ValidPairs_appendParams hO hP)
    rw [parseQsl_urlencodePairs hvalid]
    exact oauthSignature_perm hperm _ _ _
  rw [hrec]
  simp only [Value.one.injEq]

/-! ### Lemmas: canonical parameter sets and the codec round trip -/

/-- All values stored in a `Value` are genuine byte strings. -/
def ValidVal : Value → Prop
  | .one s => ValidB s
  | .many l => ∀ v ∈ l, ValidB v

instance : (v : Value) → Decidable (ValidVal v)
  | .one s => inferInstanceAs (Decidable (ValidB s))
  | .many l => inferInstanceAs (Decidable (∀ v ∈ l, ValidB v))

/-- The value is in the codec's own output form: a list is only used for
two or more values (a single value is collapsed to a scalar). -/
def CollapsedVal : Value → Prop
  | .one _ => True
  | .many l => 2 ≤ l.length

instance : (v : Value) → Decidable (CollapsedVal v)
  | .one _ => inferInstanceAs (Decidable True)
  | .many l => inferInstanceAs (Decidable (2 ≤ l.length))

/-- A ParameterSet in the data model's canonical form: a mapping (each
name occurs once), with genuine byte strings, values collapsed as the
decoder itself produces them. -/
def CanonicalParamSet (d : ParamDict) : Prop :=
  (d.map Prod.fst).Nodup ∧ ∀ p ∈ d, ValidB p.1 ∧ ValidVal p.2 ∧ CollapsedVal p.2

instance (d : ParamDict) : Decidable (CanonicalParamSet d) :=
  inferInstanceAs (Decidable (_ ∧ _))

/-- The underlying value list of a `Value`. -/
def valsOfVal : Value → List Bytes
  | .one s => [s]
  | .many l => l

theorem expandVal_eq_map (k : Bytes) (v : Value) :
    expandVal k v = (valsOfVal v).map (fun w => (k, w)) := by
  cases v <;> rfl

theorem expandDict_cons (q : Bytes × Value) (rest : ParamDict) :
    expandDict (q :: rest) = expandVal q.1 q.2 ++ expandDict rest := rfl

theorem mem_expandDict_key (d : ParamDict) : ∀ p ∈ expandDict d, p.1 ∈ d.map Prod.fst := by
  induction d with
  | nil => intro p hp; simp [expandDict] at hp
  | cons q rest ih =>
    intro p hp
    rw [expandDict_cons] at hp
    rcases List.mem_append.mp hp with h | h
    · rw [expandVal_eq_map] at h
      rcases List.mem_map.mp h with ⟨w, _, rfl⟩
      exact List.mem_cons_self _ _
    · exact List.mem_cons_of_mem _ (ih p h)

theorem valuesOf_map_key (vs : List Bytes) (k : Bytes) :
    valuesOf (vs.map (fun w => (k, w))) k = vs := by
  unfold valuesOf
  rw [List.filter_eq_self.mpr (fun p hp => ?_), List.map_map]
  · simp
  · rcases List.mem_map.mp hp with ⟨w, _, rfl⟩
    simp

theorem filter_map_key_ne (vs : List Bytes) (k : Bytes) :
    (vs.map (fun w => (k, w))).filter (fun p => decide (¬ p.1 = k)) = [] := by
  rw [List.filter_eq_nil_iff]
  intro p hp
  rcases List.mem_map.mp hp with ⟨w, _, rfl⟩
  simp

theorem groupRec_block {vs : List Bytes} (hvs : vs ≠ []) {E : Pairs} {k : Bytes}
    (hE : ∀ p ∈ E, p.1 ≠ k) :
    groupRec (vs.map (fun w => (k, w)) ++ E) = (k, vs) :: groupRec E := by
  cases vs with
  | nil => exact absurd rfl hvs
  | cons v0 vt =>
    rw [List.map_cons, List.cons_append, groupRec_cons, valuesOf_append,
      valuesOf_map_key, valuesOf_eq_nil_of_forall hE, List.append_nil,
      List.filter_append, filter_map_key_ne, filter_ne_key_of_forall hE,
      List.nil_append]

theorem collapseVal_valsOfVal {v : Value} (hc : CollapsedVal v) :
    collapseVal (valsOfVal v) = v := by
  cases v with
  | one s => rfl
  | many l =>
    match l, hc with
    | a :: b :: t, _ => rfl

theorem valsOfVal_ne_nil {v : Value} (hc : CollapsedVal v) : valsOfVal v ≠ [] := by
  cases v with
  | one s => simp [valsOfVal]
  | many l =>
    match l, hc with
    | a :: b :: t, _ => simp [valsOfVal]

theorem groupRec_expandDict (d : ParamDict) (hnd : (d.map Prod.fst).Nodup)
    (hcol : ∀ p ∈ d, CollapsedVal p.2) :
    (groupRec (expandDict d)).map (fun g => (g.1, collapseVal g.2)) = d := by
  induction d with
  | nil => rfl
  | cons q rest ih =>
    obtain ⟨k, v⟩ := q
    have hk : k ∉ rest.map Prod.fst := by
      rw [List.map_cons, List.nodup_cons] at hnd
      exact hnd.1
    have hE : ∀ p ∈ expandDict rest, p.1 ≠ k := by
      intro p hp hpk
      exact hk (hpk ▸ mem_expandDict_key rest p hp)
    rw [show expandDict ((k, v) :: rest) = expandVal k v ++ expandDict rest from rfl,
      expandVal_eq_map,
      groupRec_block (valsOfVal_ne_nil (hcol (k, v) (List.mem_cons_self _ _))) hE,
      List.map_cons,
      collapseVal_valsOfVal (hcol (k, v) (List.mem_cons_self _ _)),
      ih (by rw [List.map_cons, List.nodup_cons] at hnd; exact hnd.2)
        (fun p hp => hcol p (List.mem_cons_of_mem _ hp))]

theorem ValidPairs_expandDict {d : ParamDict}
    (hv : ∀ p ∈ d, ValidB p.1 ∧ ValidVal p.2) : ValidPairs (expandDict d) := by
  induction d with
  | nil => intro p hp; simp [expandDict] at hp
  | cons q rest ih =>
    intro p hp
    rw [expandDict_cons] at hp
    rcases List.mem_append.mp hp with h | h
    · rw [expandVal_eq_map] at h
      rcases List.mem_map.mp h with ⟨w, hw, rfl⟩
      have hq := hv q (List.mem_cons_self _ _)
      refine ⟨hq.1, ?_⟩
      cases hv2 : q.2 with
      | one s =>
        rw [hv2] at hw
        simp only [valsOfVal, List.mem_singleton] at hw
        subst hw
        have := hq.2
        rw [hv2] at this
        exact this
      | many l =>
        rw [hv2] at hw
        have := hq.2
        rw [hv2] at this
        exact this w hw
    · exact ih (fun p hp => hv p (List.mem_cons_of_mem _ hp)) p h

theorem parse_qs_urlencodeDoseq {d : ParamDict} (hc : CanonicalParamSet d) :
    parse_qs (urlencodeDoseq d) true = d := by
  obtain ⟨hnd, hv⟩ := hc
  rw [show urlencodeDoseq d = urlencodePairs (expandDict d) from rfl, parse_qs_eq,
    parseQsl_urlencodePairs (ValidPairs_expandDict (fun p hp => ⟨(hv p hp).1, (hv p hp).2.1⟩)),
    groupRec_expandDict d hnd (fun p hp => (hv p hp).2.2)]

/-! ### Other helper lemmas for the claims -/

theorem sigBaseString_perm {ps qs : Pairs} (h : List.Perm ps qs) (m u : Bytes) :
    sigBaseString m u ps = sigBaseString m u qs := by
  unfold sigBaseString collectParams
  rw [normalizeParams_perm (h.filter (fun p => decide (¬ p.1 = oauthSigKey)))]

theorem reject_of_many_signature (pkey psecret url body : Bytes) (l : List Bytes)
    (h : lookupFirst (parse_qs body true) oauthSigKey = some (Value.many l)) :
    providerPost pkey psecret url body = .rejected 401 invalidSignatureReason := by
  rw [providerPost_eq, h]
  exact if_neg (fun hh => Value.noConfusion hh)

/-! ### Claim theorems -/

/-- C2: the claim says a body without `oauth_signature` is rejected with a
structured `MissingSignature` outcome and never an unhandled fault.  The
code instead indexes `data["oauth_signature"]` unconditionally, raising an
uncaught `KeyError` (Tornado turns it into an unhandled-error HTTP 500
response): the model evaluates to the `keyError` outcome for every
configuration whenever the key is absent. -/
theorem C2_missing_signature_keyerror (pkey psecret url body : Bytes)
    (h : lookupFirst (parse_qs body true) oauthSigKey = none) :
    providerPost pkey psecret url body = .keyError oauthSigKey := by
  rw [providerPost_eq, h]

theorem C2_missing_signature_keyerror_witness :
    lookupFirst (parse_qs (str2bytes "lti_version=LTI-1p0") true) oauthSigKey = none ∧
    providerPost (str2bytes "pkz") (str2bytes "zecret") (str2bytes "http://hh/pp")
      (str2bytes "lti_version=LTI-1p0") = .keyError oauthSigKey :=
  ⟨by decide, C2_missing_signature_keyerror _ _ _ _ (by decide)⟩

/-- C3: for every incoming request containing an `oauth_signature`
parameter, the request is accepted (tool HTML, HTTP 200) exactly when the
supplied value equals the scalar recomputed signature, and otherwise it is
rejected with HTTP 401 and reason `invalid_signature`. -/
theorem C3_accept_iff_signature_match (pkey psecret url body : Bytes) (v : Value)
    (h : lookupFirst (parse_qs body true) oauthSigKey = some v) :
    (providerPost pkey psecret url body = .accepted toolHtml ↔
      v = Value.one (providerRecomputedSig psecret url
        (eraseKey (parse_qs body true) oauthSigKey))) ∧
    (v ≠ Value.one (providerRecomputedSig psecret url
        (eraseKey (parse_qs body true) oauthSigKey)) →
      providerPost pkey psecret url body = .rejected 401 invalidSignatureReason) := by
  have hpost : providerPost pkey psecret url body =
      if v = Value.one (providerRecomputedSig psecret url
          (eraseKey (parse_qs body true) oauthSigKey))
      then ProviderOutcome.accepted toolHtml
      else ProviderOutcome.rejected 401 invalidSignatureReason := by
    rw [providerPost_eq, h]
  refine ⟨?_, ?_⟩
  · rw [hpost]
    by_cases hc : v = Value.one (providerRecomputedSig psecret url
        (eraseKey (parse_qs body true) oauthSigKey))
    · rw [if_pos hc]
      exact ⟨fun _ => hc, fun _ => rfl⟩
    · rw [if_neg hc]
      exact ⟨fun hh => absurd hh (fun hh2 => ProviderOutcome.noConfusion hh2),
        fun hc2 => absurd hc2 hc⟩
  · intro hne
    rw [hpost, if_neg hne]

theorem C3_accept_iff_signature_match_witness :
    lookupFirst (parse_qs (str2bytes "lti=1&oauth_signature=p&oauth_signature=q") true)
        oauthSigKey = some (Value.many [str2bytes "p", str2bytes "q"]) ∧
    providerPost (str2bytes "pk3") (str2bytes "sec3") (str2bytes "http://c3/l")
      (str2bytes "lti=1&oauth_signature=p&oauth_signature=q") =
      .rejected 401 invalidSignatureReason :=
  ⟨by decide,
    (C3_accept_iff_signature_match (str2bytes "pk3") (str2bytes "sec3")
      (str2bytes "http://c3/l") (str2bytes "lti=1&oauth_signature=p&oauth_signature=q")
      (Value.many [str2bytes "p", str2bytes "q"]) (by decide)).2
      (fun hh => Value.noConfusion hh)⟩

/-- C4: decoding the encoding of a canonical ParameterSet (blank values
kept) yields an equal ParameterSet, including empty-string values and
multi-valued keys.  Canonical means: a genuine mapping (each name once),
byte-string names and values, and values in the codec's own collapsed
form (a list only for two or more values). -/
theorem C4_codec_roundtrip (d : ParamDict) (hc : CanonicalParamSet d) :
    parse_qs (urlencodeDoseq d) true = d :=
  parse_qs_urlencodeDoseq hc

theorem C4_codec_roundtrip_witness :
    CanonicalParamSet
      [(str2bytes "a", Value.one []),
       (str2bytes "b", Value.many [str2bytes "x y", str2bytes "z/w"])] ∧
    parse_qs (urlencodeDoseq
      [(str2bytes "a", Value.one []),
       (str2bytes "b", Value.many [str2bytes "x y", str2bytes "z/w"])]) true =
      [(str2bytes "a", Value.one []),
       (str2bytes "b", Value.many [str2bytes "x y", str2bytes "z/w"])] :=
  ⟨by decide, C4_codec_roundtrip _ (by decide)⟩

/-- C5: for every incoming request with an `oauth_signature` parameter, the
entry is removed from the decoded ParameterSet before the base string is
rebuilt: the stripped dictionary no longer contains the key, and the
outcome depends on the recomputed signature, which is a function of that
stripped dictionary only. -/
theorem C5_signature_stripped_before_recompute (pkey psecret url body : Bytes)
    (v : Value) (h : lookupFirst (parse_qs body true) oauthSigKey = some v) :
    lookupFirst (eraseKey (parse_qs body true) oauthSigKey) oauthSigKey = none ∧
    providerPost pkey psecret url body =
      (if v = Value.one (providerRecomputedSig psecret url
          (eraseKey (parse_qs body true) oauthSigKey))
       then ProviderOutcome.accepted toolHtml
       else ProviderOutcome.rejected 401 invalidSignatureReason) :=
  ⟨lookupFirst_eraseKey_self _ _, by rw [providerPost_eq, h]⟩

theorem C5_signature_stripped_before_recompute_witness :
    lookupFirst (parse_qs (str2bytes "a=b&oauth_signature=xyz") true) oauthSigKey =
      some (Value.one (str2bytes "xyz")) ∧
    lookupFirst (eraseKey (parse_qs (str2bytes "a=b&oauth_signature=xyz") true)
      oauthSigKey) oauthSigKey = none :=
  ⟨by decide,
    (C5_signature_stripped_before_recompute (str2bytes "pk5") (str2bytes "sec5")
      (str2bytes "http://c5/l") (str2bytes "a=b&oauth_signature=xyz")
      (Value.one (str2bytes "xyz")) (by decide)).1⟩

/-- C6: base-string construction and signature recomputation are pure
functions of (method, URL, parameter set, secret): two evaluations on the
same inputs are byte-identical, and reordering the expanded (name, value)
pairs of the parameter set leaves both unchanged. -/
theorem C6_base_string_pure_and_order_invariant (m u : Bytes) (ps : Pairs) (s : Bytes) :
    (sigBaseString m u ps = sigBaseString m u ps ∧
      oauthSignature m u ps s = oauthSignature m u ps s) ∧
    (∀ qs : Pairs, List.Perm ps qs →
      sigBaseString m u ps = sigBaseString m u qs ∧
      oauthSignature m u ps s = oauthSignature m u qs s) :=
  ⟨⟨rfl, rfl⟩, fun _ h => ⟨sigBaseString_perm h m u, oauthSignature_perm h m u s⟩⟩

theorem C6_base_string_pure_and_order_invariant_witness :
    List.Perm [(str2bytes "b", str2bytes "1"), (str2bytes "a", str2bytes "2")]
      [(str2bytes "a", str2bytes "2"), (str2bytes "b", str2bytes "1")] ∧
    sigBaseString (str2bytes "POST") (str2bytes "http://c6/l")
        [(str2bytes "b", str2bytes "1"), (str2bytes "a", str2bytes "2")] =
      sigBaseString (str2bytes "POST") (str2bytes "http://c6/l")
        [(str2bytes "a", str2bytes "2"), (str2bytes "b", str2bytes "1")] ∧
    oauthSignature (str2bytes "POST") (str2bytes "http://c6/l")
        [(str2bytes "b", str2bytes "1"), (str2bytes "a", str2bytes "2")]
        (str2bytes "s6") =
      oauthSignature (str2bytes "POST") (str2bytes "http://c6/l")
        [(str2bytes "a", str2bytes "2"), (str2bytes "b", str2bytes "1")]
        (str2bytes "s6") :=
  ⟨by decide,
    ((C6_base_string_pure_and_order_invariant (str2bytes "POST") (str2bytes "http://c6/l")
      [(str2bytes "b", str2bytes "1"), (str2bytes "a", str2bytes "2")]
      (str2bytes "s6")).2 _ (by decide)).1,
    ((C6_base_string_pure_and_order_invariant (str2bytes "POST") (str2bytes "http://c6/l")
      [(str2bytes "b", str2bytes "1"), (str2bytes "a", str2bytes "2")]
      (str2bytes "s6")).2 _ (by decide)).2⟩

/-- C7: the launch payload builder starts from the fixed default triple,
merges overrides by key (override wins, new keys are added, no key is
lost), and pairs the result with method POST and the configured launch
URL. -/
theorem C7_payload_builder_merge (launchUrl : Bytes) (overrides : Pairs) (k : Bytes) :
    payloadDefaults =
      [(str2bytes "lti_message_type", str2bytes "basic-lti-launch-request"),
       (str2bytes "lti_version", str2bytes "LTI-1p0"),
       (str2bytes "resource_link_id", str2bytes "1")] ∧
    (generateLaunchRequestPayload launchUrl overrides).1 = str2bytes "POST" ∧
    (generateLaunchRequestPayload launchUrl overrides).2.1 = launchUrl ∧
    lookupFirst (launchPayload overrides) k =
      (match lookupFirst overrides k with
       | some v => some v
       | none => lookupFirst payloadDefaults k) ∧
    (lookupFirst (launchPayload overrides) k = none →
      lookupFirst payloadDefaults k = none ∧ lookupFirst overrides k = none) := by
  refine ⟨rfl, rfl, rfl, lookupFirst_mergeDict _ _ _, ?_⟩
  intro habs
  rw [show launchPayload overrides = mergeDict payloadDefaults overrides from rfl,
    lookupFirst_mergeDict] at habs
  rcases he : lookupFirst overrides k with - | w
  · rw [he] at habs
    exact ⟨habs, rfl⟩
  · rw [he] at habs
    exact absurd habs (by simp)

theorem C7_payload_builder_merge_witness :
    lookupFirst (launchPayload [(str2bytes "lti_version", str2bytes "X9"),
        (str2bytes "extra", str2bytes "E")]) (str2bytes "lti_version") =
      some (str2bytes "X9") ∧
    lookupFirst (launchPayload [(str2bytes "lti_version", str2bytes "X9"),
        (str2bytes "extra", str2bytes "E")]) (str2bytes "zz") = none ∧
    lookupFirst payloadDefaults (str2bytes "zz") = none ∧
    lookupFirst [(str2bytes "lti_version", str2bytes "X9"),
        (str2bytes "extra", str2bytes "E")] (str2bytes "zz") = none :=
  ⟨by decide, by decide,
    ((C7_payload_builder_merge (str2bytes "http://c7/l")
      [(str2bytes "lti_version", str2bytes "X9"), (str2bytes "extra", str2bytes "E")]
      (str2bytes "zz")).2.2.2.2 (by decide)).1,
    ((C7_payload_builder_merge (str2bytes "http://c7/l")
      [(str2bytes "lti_version", str2bytes "X9"), (str2bytes "extra", str2bytes "E")]
      (str2bytes "zz")).2.2.2.2 (by decide)).2⟩

/-- C9 counterexample: the claim says retrieving `oauth_signature` from a
decoded body always yields a single string, never a list; but a body in
which the key occurs twice decodes to a list value. -/
theorem C9_duplicate_signature_list_cex :
    lookupFirst (parse_qs (str2bytes "oauth_signature=s1&oauth_signature=s2") true)
      oauthSigKey = some (Value.many [str2bytes "s1", str2bytes "s2"]) := by decide

/-- C9 (amended): a key with exactly one decoded value is represented as a
scalar string and a key with two or more values as a list; in particular
retrieving `oauth_signature` yields a single string whenever it occurs
exactly once in the body (and a list when it occurs more often). -/
theorem C9_collapse_representation (qs k : Bytes) :
    ((valuesOf (parseQsl qs true) k).length = 1 →
      lookupFirst (parse_qs qs true) k =
        some (Value.one ((valuesOf (parseQsl qs true) k).headD []))) ∧
    (2 ≤ (valuesOf (parseQsl qs true) k).length →
      lookupFirst (parse_qs qs true) k =
        some (Value.many (valuesOf (parseQsl qs true) k))) := by
  rw [parse_qs_eq, lookupFirst_map_collapse, lookupFirst_groupRec]
  rcases hv : valuesOf (parseQsl qs true) k with - | ⟨a, t⟩
  · exact ⟨fun h => by simp at h, fun h => by simp at h⟩
  · cases t with
    | nil => exact ⟨fun _ => rfl, fun h => by simp at h⟩
    | cons b t' => exact ⟨fun h => by simp at h, fun _ => rfl⟩

theorem C9_collapse_representation_witness :
    lookupFirst (parse_qs (str2bytes "a=1&b=2&b=3") true) (str2bytes "a") =
      some (Value.one ((valuesOf (parseQsl (str2bytes "a=1&b=2&b=3") true)
        (str2bytes "a")).headD [])) ∧
    lookupFirst (parse_qs (str2bytes "a=1&b=2&b=3") true) (str2bytes "b") =
      some (Value.many (valuesOf (parseQsl (str2bytes "a=1&b=2&b=3") true)
        (str2bytes "b"))) :=
  ⟨(C9_collapse_representation (str2bytes "a=1&b=2&b=3") (str2bytes "a")).1 (by decide),
    (C9_collapse_representation (str2bytes "a=1&b=2&b=3") (str2bytes "b")).2 (by decide)⟩

/-- C10: when `oauth_signature` occurs multiply in the body, the decoded
value is a list, the comparison against the recomputed scalar signature is
necessarily false, and the request is rejected with HTTP 401. -/
theorem C10_duplicate_signature_rejected (pkey psecret url body : Bytes)
    (l : List Bytes)
    (h : lookupFirst (parse_qs body true) oauthSigKey = some (Value.many l)) :
    Value.many l ≠ Value.one (providerRecomputedSig psecret url
      (eraseKey (parse_qs body true) oauthSigKey)) ∧
    providerPost pkey psecret url body = .rejected 401 invalidSignatureReason :=
  ⟨fun hh => Value.noConfusion hh, reject_of_many_signature pkey psecret url body l h⟩

theorem C10_duplicate_signature_rejected_witness :
    lookupFirst (parse_qs (str2bytes "x=1&oauth_signature=aa&oauth_signature=bb") true)
      oauthSigKey = some (Value.many [str2bytes "aa", str2bytes "bb"]) ∧
    providerPost (str2bytes "pkX") (str2bytes "secX") (str2bytes "http://c10/l")
      (str2bytes "x=1&oauth_signature=aa&oauth_signature=bb") =
      .rejected 401 invalidSignatureReason :=
  ⟨by decide,
    (C10_duplicate_signature_rejected (str2bytes "pkX") (str2bytes "secX")
      (str2bytes "http://c10/l") (str2bytes "x=1&oauth_signature=aa&oauth_signature=bb")
      [str2bytes "aa", str2bytes "bb"] (by decide)).2⟩

/-- C1 (amended): a freshly signed launch body — defaults merged with any
override mapping that does not use the reserved key `oauth_signature` —
verifies successfully against a provider configured with the same key and
secret, at the same launch URL and method POST: the tool HTML is written
(HTTP 200). -/
theorem C1_signed_roundtrip_accepted (key secret url : Bytes) (overrides : Pairs)
    (nonce ts : Bytes) (hkey : ValidB key) (hn : ValidB nonce) (ht : ValidB ts)
    (hov : ValidPairs overrides)
    (hsig : lookupFirst overrides oauthSigKey = none) :
    providerPost key secret url (consumerSignedBody key secret url overrides nonce ts) =
      .accepted toolHtml := by
  rw [providerPost_signed key key secret secret url overrides nonce ts hkey hn ht hov hsig,
    if_pos rfl]

theorem C1_signed_roundtrip_accepted_witness :
    ValidB (str2bytes "ck1") ∧ ValidB (str2bytes "nn1") ∧ ValidB (str2bytes "91") ∧
    ValidPairs [(str2bytes "user_id", str2bytes "u 1")] ∧
    lookupFirst [(str2bytes "user_id", str2bytes "u 1")] oauthSigKey = none ∧
    providerPost (str2bytes "ck1") (str2bytes "sek1") (str2bytes "http://c1/l")
      (consumerSignedBody (str2bytes "ck1") (str2bytes "sek1") (str2bytes "http://c1/l")
        [(str2bytes "user_id", str2bytes "u 1")] (str2bytes "nn1") (str2bytes "91")) =
      .accepted toolHtml :=
  ⟨by decide, by decide, by decide, by decide, by decide,
    C1_signed_roundtrip_accepted (str2bytes "ck1") (str2bytes "sek1")
      (str2bytes "http://c1/l") [(str2bytes "user_id", str2bytes "u 1")]
      (str2bytes "nn1") (str2bytes "91")
      (by decide) (by decide) (by decide) (by decide) (by decide)⟩

set_option maxRecDepth 40000 in
set_option maxHeartbeats 2000000 in
/-- C1 counterexample: with the override mapping supplying the reserved key
`oauth_signature`, the signed body carries that key twice (the override and
the computed signature), the provider decodes it as a list, and
verification is rejected with HTTP 401 — so the claim as stated (Accepted
for every override mapping) is false. -/
theorem C1_signature_override_rejected_cex :
    providerPost (str2bytes "ckx") (str2bytes "sekx") (str2bytes "http://cx/l")
      (consumerSignedBody (str2bytes "ckx") (str2bytes "sekx") (str2bytes "http://cx/l")
        [(oauthSigKey, str2bytes "x")] (str2bytes "nx") (str2bytes "7")) =
      .rejected 401 invalidSignatureReason := by
  have hP : ValidPairs (launchPayload [(oauthSigKey, str2bytes "x")]) := by decide
  rw [consumerSignedBody_eq _ _ _ _ _ _ hP]
  have hF : ValidPairs (consumerFinalParams (str2bytes "ckx") (str2bytes "sekx")
      (str2bytes "http://cx/l") [(oauthSigKey, str2bytes "x")] (str2bytes "nx")
      (str2bytes "7")) := by
    unfold consumerFinalParams
    refine ValidPairs_appendParams (ValidPairs_append (by decide) ?_) hP
    intro p hp
    rw [List.mem_singleton] at hp
    subst hp
    exact ⟨by show ValidB oauthSigKey; decide,
      ValidB_oauthSignature (str2bytes "POST") (str2bytes "http://cx/l")
        (appendParams (getOauthParams (str2bytes "nx") (str2bytes "7") (str2bytes "ckx"))
          (launchPayload [(oauthSigKey, str2bytes "x")])) (str2bytes "sekx")⟩
  have hvals : valuesOf (consumerFinalParams (str2bytes "ckx") (str2bytes "sekx")
      (str2bytes "http://cx/l") [(oauthSigKey, str2bytes "x")] (str2bytes "nx")
      (str2bytes "7")) oauthSigKey =
      [str2bytes "x",
        oauthSignature (str2bytes "POST") (str2bytes "http://cx/l")
          (appendParams (getOauthParams (str2bytes "nx") (str2bytes "7")
            (str2bytes "ckx")) (launchPayload [(oauthSigKey, str2bytes "x")]))
          (str2bytes "sekx")] := by
    rw [show consumerFinalParams (str2bytes "ckx") (str2bytes "sekx")
        (str2bytes "http://cx/l") [(oauthSigKey, str2bytes "x")] (str2bytes "nx")
        (str2bytes "7") =
        ((launchPayload [(oauthSigKey, str2bytes "x")]).filter
            (fun p => ! isOauthKeyed p) ++
          (launchPayload [(oauthSigKey, str2bytes "x")]).filter isOauthKeyed) ++
          (getOauthParams (str2bytes "nx") (str2bytes "7") (str2bytes "ckx") ++
            [(oauthSigKey, oauthSignature (str2bytes "POST") (str2bytes "http://cx/l")
              (appendParams (getOauthParams (str2bytes "nx") (str2bytes "7")
                (str2bytes "ckx")) (launchPayload [(oauthSigKey, str2bytes "x")]))
              (str2bytes "sekx"))]) from rfl,
      valuesOf_append, valuesOf_append, valuesOf_append,
      show valuesOf ((launchPayload [(oauthSigKey, str2bytes "x")]).filter
        (fun p => ! isOauthKeyed p)) oauthSigKey = [] from by decide,
      show valuesOf ((launchPayload [(oauthSigKey, str2bytes "x")]).filter
        isOauthKeyed) oauthSigKey = [str2bytes "x"] from by decide,
      show valuesOf (getOauthParams (str2bytes "nx") (str2bytes "7") (str2bytes "ckx"))
        oauthSigKey = [] from by decide]
    simp [valuesOf_cons, valuesOf_nil]
  refine reject_of_many_signature _ _ _ _
    [str2bytes "x",
      oauthSignature (str2bytes "POST") (str2bytes "http://cx/l")
        (appendParams (getOauthParams (str2bytes "nx") (str2bytes "7") (str2bytes "ckx"))
          (launchPayload [(oauthSigKey, str2bytes "x")])) (str2bytes "sekx")] ?_
  rw [parse_qs_eq, parseQsl_urlencodePairs hF, lookupFirst_map_collapse,
    lookupFirst_groupRec, hvals]
  rfl

/-! ### Helpers for body-alteration reasoning -/

theorem urlencodePairs_cons_ne (a : Bytes × Bytes) (bs : Pairs) (h : bs ≠ []) :
    urlencodePairs (a :: bs) = pairSeg a ++ 38 :: urlencodePairs bs := by
  cases bs with
  | nil => exact absurd rfl h
  | cons b bs' => rfl

theorem urlencodePairs_append_last (xs : Pairs) (p : Bytes × Bytes) (h : xs ≠ []) :
    urlencodePairs (xs ++ [p]) = urlencodePairs xs ++ 38 :: pairSeg p := by
  induction xs with
  | nil => exact absurd rfl h
  | cons q rest ih =>
    cases rest with
    | nil => rfl
    | cons r rest' =>
      rw [List.cons_append, urlencodePairs_cons_ne q ((r :: rest') ++ [p]) (by simp),
        ih (by simp), urlencodePairs_cons_ne q (r :: rest') (by simp)]
      simp [List.append_assoc]

theorem providerPost_congr {b1 b2 : Bytes} (pkey psecret url : Bytes)
    (h : parse_qs b1 true = parse_qs b2 true) :
    providerPost pkey psecret url b1 = providerPost pkey psecret url b2 := by
  rw [providerPost_eq, providerPost_eq, h]

set_option maxRecDepth 100000 in
set_option maxHeartbeats 4000000 in
/-- C8 (amended): a verifier configured with the signing secret accepts
the unaltered signed body; any request whose supplied `oauth_signature`
value differs from the scalar recomputed signature — in particular one
whose signature parameter was altered after signing — is rejected with
`SignatureMismatch` (HTTP 401); and in the end-to-end scenario the body
signed with secret `s3cr3t` is rejected by a verifier reconfigured with
secret `wrong`. -/
theorem C8_secret_and_alteration :
    (∀ (key secret url : Bytes) (overrides : Pairs) (nonce ts : Bytes),
      ValidB key → ValidB nonce → ValidB ts → ValidPairs overrides →
      lookupFirst overrides oauthSigKey = none →
      providerPost key secret url (consumerSignedBody key secret url overrides nonce ts) =
        .accepted toolHtml) ∧
    (∀ (pkey psecret url body : Bytes) (v : Value),
      lookupFirst (parse_qs body true) oauthSigKey = some v →
      v ≠ Value.one (providerRecomputedSig psecret url
        (eraseKey (parse_qs body true) oauthSigKey)) →
      providerPost pkey psecret url body = .rejected 401 invalidSignatureReason) ∧
    providerPost (str2bytes "test") (str2bytes "wrong") (str2bytes "http://p/l")
      (consumerSignedBody (str2bytes "test") (str2bytes "s3cr3t") (str2bytes "http://p/l")
        [] (str2bytes "abc") (str2bytes "1234567890")) =
      .rejected 401 invalidSignatureReason := by
  refine ⟨?_, ?_, ?_⟩
  · intro key secret url overrides nonce ts hkey hn ht hov hsig
    rw [providerPost_signed key key secret secret url overrides nonce ts hkey hn ht hov
      hsig, if_pos rfl]
  · intro pkey psecret url body v h hne
    rw [providerPost_eq, h]
    exact if_neg hne
  · rw [providerPost_signed (str2bytes "test") (str2bytes "test") (str2bytes "s3cr3t")
      (str2bytes "wrong") (str2bytes "http://p/l") [] (str2bytes "abc")
      (str2bytes "1234567890") (by decide) (by decide) (by decide) (by decide) (by decide)]
    exact if_neg (by decide)

theorem C8_secret_and_alteration_witness :
    lookupFirst [(str2bytes "ctx", str2bytes "C8")] oauthSigKey = none ∧
    providerPost (str2bytes "ck8") (str2bytes "sek8") (str2bytes "http://c8/l")
      (consumerSignedBody (str2bytes "ck8") (str2bytes "sek8") (str2bytes "http://c8/l")
        [(str2bytes "ctx", str2bytes "C8")] (str2bytes "nn8") (str2bytes "88")) =
      .accepted toolHtml ∧
    lookupFirst (parse_qs (str2bytes "y=2&oauth_signature=cc&oauth_signature=dd") true)
      oauthSigKey = some (Value.many [str2bytes "cc", str2bytes "dd"]) ∧
    providerPost (str2bytes "pk8") (str2bytes "sec8") (str2bytes "http://c8b/l")
      (str2bytes "y=2&oauth_signature=cc&oauth_signature=dd") =
      .rejected 401 invalidSignatureReason :=
  ⟨by decide,
    C8_secret_and_alteration.1 (str2bytes "ck8") (str2bytes "sek8") (str2bytes "http://c8/l")
      [(str2bytes "ctx", str2bytes "C8")] (str2bytes "nn8") (str2bytes "88")
      (by decide) (by decide) (by decide) (by decide) (by decide),
    by decide,
    C8_secret_and_alteration.2.1 (str2bytes "pk8") (str2bytes "sec8")
      (str2bytes "http://c8b/l") (str2bytes "y=2&oauth_signature=cc&oauth_signature=dd")
      (Value.many [str2bytes "cc", str2bytes "dd"]) (by decide)
      (fun hh => Value.noConfusion hh)⟩

set_option maxRecDepth 40000 in
set_option maxHeartbeats 4000000 in
/-- C8 counterexample: altering a single character of the freshly signed
body — the `F` of the percent-escape `%2F` in the parameter `q=/` becomes
lowercase `f` (byte 70 at index 85 becomes byte 102) — leaves the decoded
parameters unchanged, so verification still accepts the altered body
instead of returning SignatureMismatch. -/
theorem C8_hex_case_flip_accepted_cex :
    (consumerSignedBody (str2bytes "test") (str2bytes "s3cr3t") (str2bytes "http://p/l")
      [(str2bytes "q", str2bytes "/")] (str2bytes "n1") (str2bytes "17"))[85]? =
      some 70 ∧
    ((consumerSignedBody (str2bytes "test") (str2bytes "s3cr3t") (str2bytes "http://p/l")
      [(str2bytes "q", str2bytes "/")] (str2bytes "n1") (str2bytes "17")).set 85
        102)[85]? = some 102 ∧
    providerPost (str2bytes "test") (str2bytes "s3cr3t") (str2bytes "http://p/l")
      ((consumerSignedBody (str2bytes "test") (str2bytes "s3cr3t")
        (str2bytes "http://p/l") [(str2bytes "q", str2bytes "/")] (str2bytes "n1")
        (str2bytes "17")).set 85 102) = .accepted toolHtml := by
  have hP : ValidPairs (launchPayload [(str2bytes "q", str2bytes "/")]) := by decide
  have hbody : consumerSignedBody (str2bytes "test") (str2bytes "s3cr3t")
      (str2bytes "http://p/l") [(str2bytes "q", str2bytes "/")] (str2bytes "n1")
      (str2bytes "17") =
      urlencodePairs
        (((launchPayload [(str2bytes "q", str2bytes "/")]).filter
            (fun p => ! isOauthKeyed p) ++
          (launchPayload [(str2bytes "q", str2bytes "/")]).filter isOauthKeyed) ++
          getOauthParams (str2bytes "n1") (str2bytes "17") (str2bytes "test")) ++
        38 :: pairSeg (oauthSigKey,
          oauthSignature (str2bytes "POST") (str2bytes "http://p/l")
            (appendParams (getOauthParams (str2bytes "n1") (str2bytes "17")
              (str2bytes "test")) (launchPayload [(str2bytes "q", str2bytes "/")]))
            (str2bytes "s3cr3t")) := by
    rw [consumerSignedBody_eq _ _ _ _ _ _ hP]
    rw [show consumerFinalParams (str2bytes "test") (str2bytes "s3cr3t")
        (str2bytes "http://p/l") [(str2bytes "q", str2bytes "/")] (str2bytes "n1")
        (str2bytes "17") =
        (((launchPayload [(str2bytes "q", str2bytes "/")]).filter
            (fun p => ! isOauthKeyed p) ++
          (launchPayload [(str2bytes "q", str2bytes "/")]).filter isOauthKeyed) ++
          getOauthParams (str2bytes "n1") (str2bytes "17") (str2bytes "test")) ++
        [(oauthSigKey,
          oauthSignature (str2bytes "POST") (str2bytes "http://p/l")
            (appendParams (getOauthParams (str2bytes "n1") (str2bytes "17")
              (str2bytes "test")) (launchPayload [(str2bytes "q", str2bytes "/")]))
            (str2bytes "s3cr3t"))] from by
      unfold consumerFinalParams appendParams
      simp [List.append_assoc]]
    exact urlencodePairs_append_last _ _ (by decide)
  have hlen : 85 < (urlencodePairs
      (((launchPayload [(str2bytes "q", str2bytes "/")]).filter
          (fun p => ! isOauthKeyed p) ++
        (launchPayload [(str2bytes "q", str2bytes "/")]).filter isOauthKeyed) ++
        getOauthParams (str2bytes "n1") (str2bytes "17") (str2bytes "test"))).length := by
    decide
  have hset : (consumerSignedBody (str2bytes "test") (str2bytes "s3cr3t")
      (str2bytes "http://p/l") [(str2bytes "q", str2bytes "/")] (str2bytes "n1")
      (str2bytes "17")).set 85 102 =
      (urlencodePairs
        (((launchPayload [(str2bytes "q", str2bytes "/")]).filter
            (fun p => ! isOauthKeyed p) ++
          (launchPayload [(str2bytes "q", str2bytes "/")]).filter isOauthKeyed) ++
          getOauthParams (str2bytes "n1") (str2bytes "17") (str2bytes "test"))).set 85
            102 ++
        38 :: pairSeg (oauthSigKey,
          oauthSignature (str2bytes "POST") (str2bytes "http://p/l")
            (appendParams (getOauthParams (str2bytes "n1") (str2bytes "17")
              (str2bytes "test")) (launchPayload [(str2bytes "q", str2bytes "/")]))
            (str2bytes "s3cr3t")) := by
    rw [hbody]
    exact List.set_append_left 85 102 hlen
  refine ⟨?_, ?_, ?_⟩
  · rw [hbody, List.getElem?_append_left hlen]
    decide
  · rw [hset, List.getElem?_append_left (by simpa using hlen)]
    decide
  · have hparse : parse_qs ((consumerSignedBody (str2bytes "test") (str2bytes "s3cr3t")
        (str2bytes "http://p/l") [(str2bytes "q", str2bytes "/")] (str2bytes "n1")
        (str2bytes "17")).set 85 102) true =
        parse_qs (consumerSignedBody (str2bytes "test") (str2bytes "s3cr3t")
          (str2bytes "http://p/l") [(str2bytes "q", str2bytes "/")] (str2bytes "n1")
          (str2bytes "17")) true := by
      rw [hset, hbody]
      unfold parse_qs
      rw [parseQsl_append_field, parseQsl_append_field,
        show parseQsl ((urlencodePairs
          (((launchPayload [(str2bytes "q", str2bytes "/")]).filter
              (fun p => ! isOauthKeyed p) ++
            (launchPayload [(str2bytes "q", str2bytes "/")]).filter isOauthKeyed) ++
            getOauthParams (str2bytes "n1") (str2bytes "17") (str2bytes "test"))).set 85
              102) true =
          parseQsl (urlencodePairs
            (((launchPayload [(str2bytes "q", str2bytes "/")]).filter
                (fun p => ! isOauthKeyed p) ++
              (launchPayload [(str2bytes "q", str2bytes "/")]).filter isOauthKeyed) ++
              getOauthParams (str2bytes "n1") (str2bytes "17") (str2bytes "test"))) true
          from by decide]
    rw [providerPost_congr _ _ _ hparse,
      providerPost_signed (str2bytes "test") (str2bytes "test") (str2bytes "s3cr3t")
        (str2bytes "s3cr3t") (str2bytes "http://p/l") [(str2bytes "q", str2bytes "/")]
        (str2bytes "n1") (str2bytes "17") (by decide) (by decide) (by decide) (by decide)
        (by decide), if_pos rfl]

end LTI
